import Mathlib

/-!
Verification of the active-branch extraction and session-chaining algorithm
of `sync-conversation.py`.

The embedding works over decoded JSONL records: each physical line of a log
is either `none` (blank line or JSON decode failure) or `some RawRecord`
(a decoded object, with each field carrying the default the code supplies
via `.get`).  Python dicts are modelled as association lists with
insertion-order iteration and overwrite-in-place semantics; Python's
unbounded `while` walks are modelled with explicit fuel (always called with
fuel `entries.length + 1`, which is shown sufficient).  The timestamp
formatting done via `datetime.fromisoformat`/`strftime` is abstracted by a
function parameter `fmtTime : String → String` applied to non-empty raw
timestamps; no claim depends on the concrete format.
-/

namespace SyncConv

/-- One block of a list-valued `message.content`: a JSON object (with its
`"type"` field, absent modelled as `none`, and its `"text"` field defaulted
to `""` as `block.get("text", "")` does), a plain JSON string, or any other
JSON value. -/
inductive ContentBlock where
  | obj (btype : Option String) (btext : String)
  | str (s : String)
  | other
deriving DecidableEq, Repr

/-- The `message.content` payload of a record: a single string, a list of
blocks, or any other JSON value (including the `[]` default used when the
`message` object or its `content` key is missing). -/
inductive Content where
  | str (s : String)
  | list (blocks : List ContentBlock)
  | other
deriving DecidableEq, Repr

/-- One decoded JSONL object, with the defaults the code supplies:
`entry.get("uuid", "")`, `entry.get("type", "")`, `entry.get("parentUuid", "")`,
`entry.get("isSidechain", False)`, `entry.get("timestamp", "")`,
`entry.get("message", {}).get("content", [])`. -/
structure RawRecord where
  uuid : String := ""
  type : String := ""
  parentUuid : String := ""
  isSidechain : Bool := false
  timestamp : String := ""
  content : Content := .list []
deriving DecidableEq, Repr

/-- A rendered message `{role, text, time}`. -/
structure Message where
  role : String
  text : String
  time : String
deriving DecidableEq, Repr

/-- The per-uuid data stored in the `entries` dict. -/
structure EntryData where
  type : String
  parentUuid : String
  line : Nat
  isSidechain : Bool
  text_data : Option Message
  timestamp : String
deriving DecidableEq, Repr

/-- Result tuple of `extract_active_branch`:
`(messages, file_size, active_leaf_uuid, first_ts, last_ts, orphan_parents)`. -/
structure ExtractResult where
  messages : List Message
  file_size : Nat
  active_leaf : Option String
  first_ts : Option String
  last_ts : Option String
  orphan_parents : List String
deriving DecidableEq, Repr

/-- Python `d[k]` read on a dict modelled as an association list. -/
def dictLookup (k : String) : List (String × α) → Option α
  | [] => none
  | (k', v) :: rest => if k' = k then some v else dictLookup k rest

/-- Python `d[k] = v`: overwrite in place if present (dict keeps the key's
original iteration position), else append. -/
def dictInsert (k : String) (v : α) : List (String × α) → List (String × α)
  | [] => [(k, v)]
  | (k', v') :: rest =>
      if k' = k then (k, v) :: rest else (k', v') :: dictInsert k v rest

/-- Python `defaultdict(list)`'s `d[k].append(v)`. -/
def dictAppend (k : String) (v : α) : List (String × List α) → List (String × List α)
  | [] => [(k, [v])]
  | (k', vs) :: rest =>
      if k' = k then (k, vs ++ [v]) :: rest else (k', vs) :: dictAppend k v rest

/-- Lexicographic code-point comparison of character lists (how Python
compares strings). -/
def strLeList : List Char → List Char → Bool
  | [], _ => true
  | _ :: _, [] => false
  | a :: as, b :: bs =>
      if a.toNat < b.toNat then true
      else if b.toNat < a.toNat then false
      else strLeList as bs

/-- Python string `<=`: lexicographic by code point. -/
def strLe (a b : String) : Bool := strLeList a.data b.data

/-- Python `str.strip()`: drop whitespace from both ends. -/
def pyStrip (s : String) : String :=
  String.mk (((s.data.dropWhile Char.isWhitespace).reverse.dropWhile Char.isWhitespace).reverse)

/-- Python `str.capitalize()`: first character uppercased, the rest lowered. -/
def pyCapitalize (s : String) : String :=
  match s.data with
  | [] => ""
  | c :: rest => String.mk (c.toUpper :: rest.map Char.toLower)

/-- The `text_parts` loop over `message.content` (lines 152-164): a string
content is taken whole; in a list, an object block of type `"text"`
contributes its stripped text when non-empty, a plain string block is
appended verbatim, and any other block is ignored. -/
def textPartsOf : Content → List String
  | .str s => [s]
  | .list blocks =>
      blocks.foldl
        (fun parts b =>
          match b with
          | .obj btype btext =>
              if btype = some "text" then
                let text := pyStrip btext
                if text ≠ "" then parts ++ [text] else parts
              else parts
          | .str s => parts ++ [s]
          | .other => parts)
        []
  | .other => []

/-- The `time_str` computation (lines 167-175): empty when the raw timestamp
is empty, otherwise the formatted timestamp (`datetime` formatting with
truncation fallback, abstracted as `fmtTime`). -/
def timeStrOf (fmtTime : String → String) (rawTimestamp : String) : String :=
  if rawTimestamp = "" then "" else fmtTime rawTimestamp

/-- The `text_data` computed for one record (lines 147-181): only
user/assistant records carry text, and only when `text_parts` is non-empty. -/
def textDataOf (fmtTime : String → String) (rec : RawRecord) : Option Message :=
  if rec.type = "user" ∨ rec.type = "assistant" then
    let parts := textPartsOf rec.content
    if parts ≠ [] then
      some ⟨pyCapitalize rec.type, String.intercalate "\n\n" parts, timeStrOf fmtTime rec.timestamp⟩
    else none
  else none

/-- The dict value written to `entries[uuid]` for one record (lines 183-190). -/
def entryDataOf (fmtTime : String → String) (rec : RawRecord) (lineNum : Nat) : EntryData :=
  ⟨rec.type, rec.parentUuid, lineNum, rec.isSidechain, textDataOf fmtTime rec, rec.timestamp⟩

/-- The loop body of the single pass over the log (lines 127-193),
threading `(entries, children, line_num)`: skip undecodable lines and
records without a uuid (the line counter still advances, as
`enumerate(f, 1)` counts every physical line); otherwise write
`entries[uuid]` (last write wins) and append to `children[parentUuid]`
when the parent id is non-empty. -/
def buildStep (fmtTime : String → String)
    (st : List (String × EntryData) × List (String × List String) × Nat)
    (ol : Option RawRecord) :
    List (String × EntryData) × List (String × List String) × Nat :=
  match ol with
  | none => (st.1, st.2.1, st.2.2 + 1)
  | some rec =>
      if rec.uuid = "" then (st.1, st.2.1, st.2.2 + 1)
      else
        (dictInsert rec.uuid (entryDataOf fmtTime rec st.2.2) st.1,
         (if rec.parentUuid ≠ "" then dictAppend rec.parentUuid rec.uuid st.2.1 else st.2.1),
         st.2.2 + 1)

/-- The single pass over the log (lines 126-193), producing the `entries`
and `children` dicts. -/
def buildEntries (fmtTime : String → String) (lines : List (Option RawRecord)) :
    List (String × EntryData) × List (String × List String) :=
  let st := lines.foldl (buildStep fmtTime) ([], [], 1)
  (st.1, st.2.1)

/-- The orphan-parent list (lines 199-206): parent ids of non-sidechain
entries that are non-empty and not a key of `entries`, in entry-iteration
(insertion) order. -/
def orphansOf (entries : List (String × EntryData)) : List String :=
  entries.filterMap (fun p =>
    if p.2.parentUuid ≠ "" ∧ dictLookup p.2.parentUuid entries = none ∧ p.2.isSidechain = false
    then some p.2.parentUuid else none)

/-- Candidate leaves (lines 209-215): ids with no children excluding
sidechain entries, falling back to all childless ids when that is empty. -/
def leavesOf (entries : List (String × EntryData)) (children : List (String × List String)) :
    List String :=
  let nonSide := entries.filterMap (fun p =>
    if dictLookup p.1 children = none ∧ p.2.isSidechain = false then some p.1 else none)
  if nonSide = [] then
    entries.filterMap (fun p => if dictLookup p.1 children = none then some p.1 else none)
  else nonSide

/-- The upward walk of `leaf_to_root` (lines 221-230): follow parent links,
stopping with `some current` (the resolved root) when the parent id is empty
or unknown; exit with `none` (no root assigned) when the walk leaves the
entry map or revisits a node.  Fuel bounds the iteration count; callers pass
`entries.length + 1`, which is sufficient (see `walkToRoot_stable`). -/
def walkToRoot (entries : List (String × EntryData)) :
    Nat → String → List String → Option String
  | 0, _, _ => none
  | fuel + 1, current, visited =>
      if current = "" then none
      else
        match dictLookup current entries with
        | none => none
        | some e =>
            if current ∈ visited then none
            else if e.parentUuid = "" ∨ dictLookup e.parentUuid entries = none then
              some current
            else walkToRoot entries fuel e.parentUuid (current :: visited)

/-- `leaf_to_root` (lines 220-230) as an association list in leaf order;
leaves whose walk exits without a `break` get no entry. -/
def leafToRootOf (entries : List (String × EntryData)) (leaves : List String) :
    List (String × String) :=
  leaves.filterMap (fun leaf =>
    (walkToRoot entries (entries.length + 1) leaf []).map (fun root => (leaf, root)))

/-- `root_to_leaves` (lines 233-235): group leaves by resolved root. -/
def groupsOf (leafToRoot : List (String × String)) : List (String × List String) :=
  leafToRoot.foldl (fun acc p => dictAppend p.2 p.1 acc) []

/-- `entries[u]["line"]` as a total key function (every id this is applied
to is a key of `entries`). -/
def lineOf (entries : List (String × EntryData)) (u : String) : Nat :=
  ((dictLookup u entries).map (·.line)).getD 0

/-- Stable insertion into a sorted list (used to model Python `sorted`). -/
def insertLe (le : α → α → Bool) (x : α) : List α → List α
  | [] => [x]
  | y :: ys => if le x y then x :: y :: ys else y :: insertLe le x ys

/-- Python `sorted(l, key=...)` modelled as insertion sort by a boolean
order relation. -/
def sortLe (le : α → α → Bool) : List α → List α
  | [] => []
  | x :: xs => insertLe le x (sortLe le xs)

/-- `sorted_roots` (line 238): the grouped roots in ascending order of the
root entry's own stored line number. -/
def sortedRootsOf (entries : List (String × EntryData))
    (groups : List (String × List String)) : List String :=
  sortLe (fun a b => lineOf entries a ≤ lineOf entries b) (groups.map (·.1))

/-- Python `max(l, key=key)` on a non-empty list: the first element of
maximal key (`max` only replaces the champion on a strictly greater key).
The `[]` case cannot occur (`max` of an empty sequence raises). -/
def pyMax (key : α → Nat) : List α → Option α
  | [] => none
  | x :: xs => some (xs.foldl (fun best c => if key best < key c then c else best) x)

/-- The path-collection walk from the active leaf (lines 249-255): append
nodes while the current id is non-empty, present in `entries`, and not yet
visited.  Same fuel discipline as `walkToRoot`. -/
def collectPath (entries : List (String × EntryData)) :
    Nat → String → List String → List String
  | 0, _, _ => []
  | fuel + 1, current, visited =>
      if current = "" then []
      else
        match dictLookup current entries with
        | none => []
        | some e =>
            if current ∈ visited then []
            else current :: collectPath entries fuel e.parentUuid (current :: visited)

/-- The messages contributed by one root's active branch (lines 249-262). -/
def branchMsgs (entries : List (String × EntryData)) (activeLeaf : String) : List Message :=
  ((collectPath entries (entries.length + 1) activeLeaf []).reverse).filterMap
    (fun u => (dictLookup u entries).bind (·.text_data))

/-- The timestamps contributed by one root's active branch (lines 263-265). -/
def branchTss (entries : List (String × EntryData)) (activeLeaf : String) : List String :=
  ((collectPath entries (entries.length + 1) activeLeaf []).reverse).filterMap
    (fun u => (dictLookup u entries).bind
      (fun e => if e.timestamp = "" then none else some e.timestamp))

/-- The active leaf chosen for one root (line 246): the group member with the
greatest stored line number. -/
def activeLeafOf (entries : List (String × EntryData))
    (groups : List (String × List String)) (root : String) : Option String :=
  pyMax (lineOf entries) ((dictLookup root groups).getD [])

/-- The per-root loop body (lines 244-267), threading
`(all_messages, branch_timestamps, overall_active_leaf)`. -/
def rootStep (entries : List (String × EntryData)) (groups : List (String × List String))
    (st : List Message × List String × Option String) (root : String) :
    List Message × List String × Option String :=
  match activeLeafOf entries groups root with
  | none => st
  | some al => (st.1 ++ branchMsgs entries al, st.2.1 ++ branchTss entries al, some al)

/-- `extract_active_branch` (lines 107-272) over the decoded lines of one
log of byte size `size`. -/
def extract_active_branch (fmtTime : String → String) (size : Nat)
    (lines : List (Option RawRecord)) : ExtractResult :=
  let p := buildEntries fmtTime lines
  let entries := p.1
  let children := p.2
  if entries = [] then ⟨[], size, none, none, none, []⟩
  else
    let orphans := orphansOf entries
    let leaves := leavesOf entries children
    if leaves = [] then ⟨[], size, none, none, none, orphans⟩
    else
      let groups := groupsOf (leafToRootOf entries leaves)
      let roots := sortedRootsOf entries groups
      let res := roots.foldl (rootStep entries groups) ([], [], none)
      ⟨res.1, size, res.2.2, res.2.1.head?, res.2.1.getLast?, orphans⟩

/-! ## Chain detection (`detect_chains`, lines 311-365) -/

/-- One transcript file as seen by the chain scanner: its session id (file
stem), its byte size (zero-length files are skipped), and its decoded lines. -/
structure LogFile where
  sid : String
  size : Nat
  lines : List (Option RawRecord)
deriving DecidableEq, Repr

/-- `all_orphans` (lines 336-339): last-write-wins map from each orphan uuid
to the session that needs it, built over the (non-empty) orphan lists in
session order. -/
def allOrphansOf (sessionOrphans : List (String × List String)) : List (String × String) :=
  sessionOrphans.foldl
    (fun acc p => p.2.foldl (fun a orphan => dictInsert orphan p.1 a) acc) []

/-- The per-line body of the scan (lines 353-363): on a decoded line whose
uuid is still pending, record a continuation edge unless the hit is within
the requesting session itself, and discard the uuid from the pending set.
The inner `none` branch is unreachable (the pending set is always a subset
of `all_orphans`' keys, so the Python `all_orphans[uuid]` read cannot fail). -/
def scanLine (allOrphans : List (String × String)) (sourceSid : String)
    (st : List (String × String) × List String) (line : Option RawRecord) :
    List (String × String) × List String :=
  match line with
  | none => st
  | some rec =>
      if rec.uuid ∈ st.2 then
        match dictLookup rec.uuid allOrphans with
        | some childSid =>
            ((if childSid ≠ sourceSid then dictInsert childSid sourceSid st.1 else st.1),
             st.2.filter (· ≠ rec.uuid))
        | none => st
      else st

/-- The per-file body of the scan (lines 345-363): once the pending set is
empty the loop `break`s (no later file changes the state, which the guard
reproduces), and zero-length files are skipped. -/
def scanFile (allOrphans : List (String × String))
    (st : List (String × String) × List String) (file : LogFile) :
    List (String × String) × List String :=
  if st.2 = [] then st
  else if file.size = 0 then st
  else file.lines.foldl (scanLine allOrphans file.sid) st

/-- `all_orphans` as `detect_chains` builds it: the empty orphan lists are
dropped first (`if orphans:` at line 327), then each remaining list is
folded in session order. -/
def orphanIndexOf (sessions : List (String × List String)) : List (String × String) :=
  allOrphansOf (sessions.filter (fun p => p.2 ≠ []))

/-- The same index flattened to its `(orphan, session)` pairs in write
order (a proof device: with globally distinct orphan ids the fold of
`dictInsert`s is exactly this list). -/
def flatOrphanPairs (sessions : List (String × List String)) : List (String × String) :=
  sessions.flatMap (fun p => p.2.map (fun o => (o, p.1)))

/-- `detect_chains` together with its final pending set (the `remaining`
variable); the function itself returns only the first component. -/
def detectChainsFull (sessions : List (String × List String)) (logs : List LogFile) :
    List (String × String) × List String :=
  if sessions.filter (fun p => p.2 ≠ []) = [] then ([], [])
  else
    let allOrphans := orphanIndexOf sessions
    let remaining := allOrphans.map (·.1)
    (sortLe (fun a b => strLe a.sid b.sid) logs).foldl (scanFile allOrphans) ([], remaining)

/-- `detect_chains` (lines 311-365): the `{session: continues_session}` map,
taking the decoded per-session orphan lists (from the state files, in
discovery order) and the transcript files (sorted by session id, as
`sorted(transcript_dir.glob(...))` does). -/
def detect_chains (sessions : List (String × List String)) (logs : List LogFile) :
    List (String × String) :=
  (detectChainsFull sessions logs).1

/-! ## Chain building (`build_chains`, lines 368-395) -/

/-- The `while current in continued_by` walk (lines 389-392), fuel-bounded
(the code itself would loop forever on a cyclic `continues` map; callers
pass `continuedBy.length + 1`, enough for every acyclic chain). -/
def followChain (continuedBy : List (String × String)) :
    Nat → String → List String
  | 0, _ => []
  | fuel + 1, current =>
      match dictLookup current continuedBy with
      | some nxt => nxt :: followChain continuedBy fuel nxt
      | none => []

/-- `build_chains` (lines 368-395): heads (sessions that continue nothing)
in ascending session-id order, each followed along the reverse map. -/
def build_chains (continues : List (String × String)) : List (List String) :=
  let continuedBy := continues.foldl (fun acc p => dictInsert p.2 p.1 acc) []
  let allSessions := (continues.map (·.1) ++ continues.map (·.2)).eraseDups
  let heads := allSessions.filter (fun sid => dictLookup sid continues = none)
  (sortLe strLe heads).map
    (fun head => head :: followChain continuedBy (continuedBy.length + 1) head)

/-! ## Session sync (`sync_session`, lines 600-648) -/

/-- The decoded persisted state of a session, with each field optional
(read back with `.get`); a missing or unreadable state file is `none` at
the use site. -/
structure StoredState where
  file_size : Option Nat := none
  leaf_uuid : Option String := none
  first_ts : Option String := none
  last_ts : Option String := none
  orphan_parents : Option (List String) := none
deriving DecidableEq, Repr

/-- The observable effect of one `sync_session` call: its boolean return,
the state JSON written (if any), and the part markdown written (if any). -/
structure SyncResult where
  updated : Bool
  wroteState : Option StoredState
  wrotePart : Option String
deriving DecidableEq, Repr

/-- `format_messages` (lines 275-284). -/
def format_messages (messages : List Message) : String :=
  String.intercalate "\n"
    (messages.foldl
      (fun lines msg =>
        lines ++ ["## " ++ msg.role ++ (if msg.time ≠ "" then " [" ++ msg.time ++ "]" else ""), "",
                  msg.text, ""])
      [])

/-- `sync_session` (lines 600-648) on a log of byte size `size` with decoded
lines `lines`, given the decoded previous state (`none` when the state file
is missing or unreadable, which the code treats as `{}`). -/
def sync_session (fmtTime : String → String) (prevState : Option StoredState)
    (size : Nat) (lines : List (Option RawRecord)) : SyncResult :=
  if (prevState.bind (·.file_size)) = some size then ⟨false, none, none⟩
  else
    let r := extract_active_branch fmtTime size lines
    if r.messages = [] then
      ⟨false, some ⟨some r.file_size, none, none, none, none⟩, none⟩
    else
      ⟨true,
       some ⟨some r.file_size, r.active_leaf, r.first_ts, r.last_ts, some r.orphan_parents⟩,
       some (format_messages r.messages)⟩

/-! ## Derived views of `extract_active_branch`'s locals -/

/-- The `entries` dict built for a log. -/
def entriesOf (fmtTime : String → String) (lines : List (Option RawRecord)) :
    List (String × EntryData) :=
  (buildEntries fmtTime lines).1

/-- The `children` dict built for a log. -/
def childrenOf (fmtTime : String → String) (lines : List (Option RawRecord)) :
    List (String × List String) :=
  (buildEntries fmtTime lines).2

/-- The candidate `leaves` list of a log. -/
def theLeaves (fmtTime : String → String) (lines : List (Option RawRecord)) : List String :=
  leavesOf (entriesOf fmtTime lines) (childrenOf fmtTime lines)

/-- The `root_to_leaves` grouping of a log. -/
def theGroups (fmtTime : String → String) (lines : List (Option RawRecord)) :
    List (String × List String) :=
  groupsOf (leafToRootOf (entriesOf fmtTime lines) (theLeaves fmtTime lines))

/-- `sorted_roots` for a log. -/
def theRoots (fmtTime : String → String) (lines : List (Option RawRecord)) : List String :=
  sortedRootsOf (entriesOf fmtTime lines) (theGroups fmtTime lines)

/-- The leaves of one root's group. -/
def groupLeaves (fmtTime : String → String) (lines : List (Option RawRecord)) (root : String) :
    List String :=
  (dictLookup root (theGroups fmtTime lines)).getD []

/-- The identity formatter, used to instantiate `fmtTime` on concrete runs. -/
def fmtId : String → String := fun s => s

/-- The messages one root contributes (empty in the unreachable case where
its group is empty). -/
def rootBranchMsgs (entries : List (String × EntryData)) (groups : List (String × List String))
    (r : String) : List Message :=
  match activeLeafOf entries groups r with
  | none => []
  | some al => branchMsgs entries al

/-- The timestamps one root contributes. -/
def rootBranchTss (entries : List (String × EntryData)) (groups : List (String × List String))
    (r : String) : List String :=
  match activeLeafOf entries groups r with
  | none => []
  | some al => branchTss entries al

/-! ## Spec-side definitions (for comparison with the code's behaviour) -/

/-- The text-part extraction exactly as the C3 claim words it: take only the
blocks whose kind is `"text"`, trim each, drop the empty ones, and ignore
every block without a recognized text kind (in particular plain string
blocks, which carry no kind). -/
def claimedTextParts : Content → List String
  | .str s => [s]
  | .list blocks =>
      blocks.filterMap (fun b =>
        match b with
        | .obj btype btext =>
            if btype = some "text" then
              (if pyStrip btext ≠ "" then some (pyStrip btext) else none)
            else none
        | .str _ => none
        | .other => none)
  | .other => []

/-- The text-part extraction as the amended C3 claim words it: blocks of
kind `"text"` contribute their trimmed text when non-empty, plain string
blocks are appended verbatim (untrimmed, kept even when empty), and all
other blocks are ignored. -/
def amendedTextParts : Content → List String
  | .str s => [s]
  | .list blocks =>
      blocks.filterMap (fun b =>
        match b with
        | .obj btype btext =>
            if btype = some "text" then
              (if pyStrip btext ≠ "" then some (pyStrip btext) else none)
            else none
        | .str s => some s
        | .other => none)
  | .other => []

/-! ## Concrete example logs (for witnesses and counterexamples) -/

/-- A user record with a single text block. -/
def uRec (u p t : String) : Option RawRecord :=
  some { uuid := u, type := "user", parentUuid := p, content := .list [.obj (some "text") t] }

/-- A record with an id but no extractable text. -/
def bareRec (u p : String) : Option RawRecord :=
  some { uuid := u, parentUuid := p }

/-- Rewind example: root `a` with two leaves, `b` (line 2) and `c` (line 3). -/
def exRewind : List (Option RawRecord) :=
  [uRec "a" "" "A", uRec "b" "a" "B", uRec "c" "a" "C"]

/-- Cycle example: `a` and `b` are mutual parents, `c` is a childless leaf
whose upward walk runs into the `a`/`b` cycle. -/
def exCycleLeaf : List (Option RawRecord) :=
  [uRec "a" "b" "A", uRec "b" "a" "B", uRec "c" "a" "C"]

/-- Pure-cycle example with no extractable text: two mutual parents, no
childless entry at all. -/
def exCycleOnly : List (Option RawRecord) :=
  [bareRec "a" "b", bareRec "b" "a"]

/-- Duplicate-id example: root `r1` first appears on line 1 but is
overwritten on line 4, root `r2` appears on line 2; each root has one leaf. -/
def exDupRoot : List (Option RawRecord) :=
  [uRec "r1" "" "R1", uRec "r2" "" "R2", uRec "a" "r2" "A", uRec "r1" "" "R1d", uRec "b" "r1" "B"]

/-- A single rootless record with no text. -/
def exBareSingle : List (Option RawRecord) :=
  [bareRec "a" ""]

/-- A record whose list content holds one plain string block `" x "`. -/
def exStrBlockRec : RawRecord :=
  { uuid := "a", type := "user", content := .list [.str " x "] }

/-- One-record log containing just `exStrBlockRec`. -/
def exStrBlock : List (Option RawRecord) :=
  [some exStrBlockRec]

/-- A transcript file whose single decoded line carries uuid `u`. -/
def oneRecLog (sid u : String) (sz : Nat) : LogFile :=
  ⟨sid, sz, [some { uuid := u }]⟩

/-- A previously stored state recording byte size 4. -/
def exPrev4 : Option StoredState := some { file_size := some 4 }

/-- A previously stored state recording byte size 7. -/
def exPrev7 : Option StoredState := some { file_size := some 7 }

/-- Side-branch example: root `a`, non-side leaf `b`, side-branch leaf `s`. -/
def exSide : List (Option RawRecord) :=
  [uRec "a" "" "A", uRec "b" "a" "B",
   some { uuid := "s", type := "user", parentUuid := "a", isSidechain := true,
          content := .list [.obj (some "text") "S"] }]

/-- The uuids appearing on the decoded lines of a log (as the chain scanner
reads them). -/
def uuidsOf (lines : List (Option RawRecord)) : List String :=
  lines.filterMap (fun ol => ol.map (·.uuid))

/-! ## Association-list (Python dict) lemmas -/

theorem dictLookup_mem {α : Type} {k : String} {v : α} :
    ∀ {l : List (String × α)}, dictLookup k l = some v → (k, v) ∈ l := by
  intro l
  induction l with
  | nil => intro h; simp [dictLookup] at h
  | cons p rest ih =>
      intro h
      cases p with
      | mk k' v' =>
          by_cases hk : k' = k
          · subst hk
            simp only [dictLookup, if_pos rfl] at h
            simp [(Option.some.inj h).symm]
          · simp only [dictLookup, if_neg hk] at h
            exact List.mem_cons_of_mem _ (ih h)

theorem dictLookup_eq_none_iff {α : Type} {k : String} :
    ∀ {l : List (String × α)}, dictLookup k l = none ↔ k ∉ l.map Prod.fst := by
  intro l
  induction l with
  | nil => simp [dictLookup]
  | cons p rest ih =>
      cases p with
      | mk k' v' =>
          by_cases hk : k' = k
          · subst hk; simp [dictLookup]
          · simp [dictLookup, hk, ih, Ne.symm hk]

theorem dictLookup_isSome_iff {α : Type} {k : String} {l : List (String × α)} :
    (dictLookup k l).isSome ↔ k ∈ l.map Prod.fst := by
  rw [← Decidable.not_iff_not, Option.not_isSome_iff_eq_none, dictLookup_eq_none_iff]

theorem dictLookup_dictInsert_self {α : Type} {k : String} {v : α} :
    ∀ {l : List (String × α)}, dictLookup k (dictInsert k v l) = some v := by
  intro l
  induction l with
  | nil => simp [dictInsert, dictLookup]
  | cons p rest ih =>
      cases p with
      | mk k' v' =>
          by_cases hk : k' = k
          · simp [dictInsert, hk, dictLookup]
          · simp [dictInsert, hk, dictLookup, ih]

theorem dictLookup_dictInsert_ne {α : Type} {k k' : String} {v : α}
    (hne : k' ≠ k) :
    ∀ {l : List (String × α)}, dictLookup k' (dictInsert k v l) = dictLookup k' l := by
  intro l
  induction l with
  | nil => simp [dictInsert, dictLookup, Ne.symm hne]
  | cons p rest ih =>
      cases p with
      | mk k'' v'' =>
          by_cases hk : k'' = k
          · subst hk
            simp [dictInsert, dictLookup, Ne.symm hne]
          · simp only [dictInsert, if_neg hk]
            by_cases hk' : k'' = k'
            · simp [dictLookup, hk']
            · simp [dictLookup, hk', ih]

theorem dictInsert_of_not_mem {α : Type} {k : String} {v : α} :
    ∀ {l : List (String × α)}, k ∉ l.map Prod.fst → dictInsert k v l = l ++ [(k, v)] := by
  intro l
  induction l with
  | nil => simp [dictInsert]
  | cons p rest ih =>
      intro h
      cases p with
      | mk k' v' =>
          simp only [List.map_cons, List.mem_cons] at h
          push_neg at h
          simp [dictInsert, Ne.symm h.1, ih h.2]

theorem mem_keys_dictInsert {α : Type} {a k : String} {v : α} :
    ∀ {l : List (String × α)},
      a ∈ (dictInsert k v l).map Prod.fst ↔ a = k ∨ a ∈ l.map Prod.fst := by
  intro l
  induction l with
  | nil => simp [dictInsert]
  | cons p rest ih =>
      cases p with
      | mk k' v' =>
          simp only [dictInsert]
          by_cases hk : k' = k
          · rw [if_pos hk]
            subst hk
            simp only [List.map_cons, List.mem_cons]
            tauto
          · rw [if_neg hk]
            simp only [List.map_cons, List.mem_cons, ih]
            tauto

theorem nodup_keys_dictInsert {α : Type} {k : String} {v : α} :
    ∀ {l : List (String × α)}, (l.map Prod.fst).Nodup → ((dictInsert k v l).map Prod.fst).Nodup := by
  intro l
  induction l with
  | nil => simp [dictInsert]
  | cons p rest ih =>
      intro h
      cases p with
      | mk k' v' =>
          simp only [List.map_cons, List.nodup_cons] at h
          by_cases hk : k' = k
          · subst hk
            simpa [dictInsert] using h
          · simp only [dictInsert, if_neg hk, List.map_cons, List.nodup_cons]
            refine ⟨fun hmem => ?_, ih h.2⟩
            rcases mem_keys_dictInsert.mp hmem with h1 | h1
            · exact hk h1
            · exact h.1 h1

theorem dictLookup_dictAppend_self {α : Type} {k : String} {v : α} :
    ∀ {l : List (String × List α)},
      dictLookup k (dictAppend k v l) = some ((dictLookup k l).getD [] ++ [v]) := by
  intro l
  induction l with
  | nil => simp [dictAppend, dictLookup]
  | cons p rest ih =>
      cases p with
      | mk k' vs =>
          by_cases hk : k' = k
          · simp [dictAppend, hk, dictLookup]
          · simp [dictAppend, hk, dictLookup, ih]

theorem dictLookup_dictAppend_ne {α : Type} {k k' : String} {v : α}
    (hne : k' ≠ k) :
    ∀ {l : List (String × List α)},
      dictLookup k' (dictAppend k v l) = dictLookup k' l := by
  intro l
  induction l with
  | nil => simp [dictAppend, dictLookup, Ne.symm hne]
  | cons p rest ih =>
      cases p with
      | mk k'' vs =>
          by_cases hk : k'' = k
          · subst hk
            simp [dictAppend, dictLookup, Ne.symm hne]
          · simp only [dictAppend, if_neg hk]
            by_cases hk' : k'' = k'
            · simp [dictLookup, hk']
            · simp [dictLookup, hk', ih]

/-! ## Sorting lemmas -/

theorem insertLe_perm {α : Type} (le : α → α → Bool) (x : α) :
    ∀ (l : List α), List.Perm (insertLe le x l) (x :: l) := by
  intro l
  induction l with
  | nil => simp [insertLe]
  | cons y ys ih =>
      simp only [insertLe]
      by_cases h : le x y
      · rw [if_pos h]
      · rw [if_neg h]
        exact (ih.cons y).trans (List.Perm.swap x y ys)

theorem sortLe_perm {α : Type} (le : α → α → Bool) :
    ∀ (l : List α), List.Perm (sortLe le l) l := by
  intro l
  induction l with
  | nil => simp [sortLe]
  | cons x xs ih => exact (insertLe_perm le x (sortLe le xs)).trans (ih.cons x)

theorem insertLe_pairwise {α : Type} (le : α → α → Bool)
    (htot : ∀ a b, le a b = true ∨ le b a = true)
    (htrans : ∀ a b c, le a b = true → le b c = true → le a c = true) (x : α) :
    ∀ (l : List α), l.Pairwise (fun a b => le a b = true) →
      (insertLe le x l).Pairwise (fun a b => le a b = true) := by
  intro l
  induction l with
  | nil => intro _; simp [insertLe]
  | cons y ys ih =>
      intro h
      rcases List.pairwise_cons.mp h with ⟨hy, hys⟩
      simp only [insertLe]
      by_cases hxy : le x y
      · rw [if_pos hxy]
        refine List.pairwise_cons.mpr ⟨?_, h⟩
        intro z hz
        rcases List.mem_cons.mp hz with rfl | hz
        · exact hxy
        · exact htrans x y z hxy (hy z hz)
      · rw [if_neg hxy]
        have hyx : le y x = true := by
          rcases htot x y with h1 | h1
          · exact absurd h1 hxy
          · exact h1
        refine List.pairwise_cons.mpr ⟨?_, ih hys⟩
        intro z hz
        have := (insertLe_perm le x ys).mem_iff.mp hz
        rcases List.mem_cons.mp this with rfl | hz'
        · exact hyx
        · exact hy z hz'

theorem sortLe_pairwise {α : Type} (le : α → α → Bool)
    (htot : ∀ a b, le a b = true ∨ le b a = true)
    (htrans : ∀ a b c, le a b = true → le b c = true → le a c = true) :
    ∀ (l : List α), (sortLe le l).Pairwise (fun a b => le a b = true) := by
  intro l
  induction l with
  | nil => simp [sortLe]
  | cons x xs ih => exact insertLe_pairwise le htot htrans x (sortLe le xs) ih

/-! ## `pyMax` lemmas -/

theorem pyMax_spec {α : Type} (key : α → Nat) :
    ∀ (xs : List α) (b : α),
      (xs.foldl (fun best c => if key best < key c then c else best) b = b ∨
        xs.foldl (fun best c => if key best < key c then c else best) b ∈ xs) ∧
      key b ≤ key (xs.foldl (fun best c => if key best < key c then c else best) b) ∧
      ∀ a ∈ xs, key a ≤ key (xs.foldl (fun best c => if key best < key c then c else best) b) := by
  intro xs
  induction xs with
  | nil => intro b; simp
  | cons x xs ih =>
      intro b
      simp only [List.foldl_cons]
      rcases ih (if key b < key x then x else b) with ⟨hmem, hb, hall⟩
      have hb' : key b ≤ key (if key b < key x then x else b) := by
        by_cases h : key b < key x
        · rw [if_pos h]; omega
        · rw [if_neg h]
      have hx' : key x ≤ key (if key b < key x then x else b) := by
        by_cases h : key b < key x
        · rw [if_pos h]
        · rw [if_neg h]; omega
      refine ⟨?_, le_trans hb' hb, ?_⟩
      · rcases hmem with h | h
        · rw [h]
          by_cases hc : key b < key x
          · rw [if_pos hc]; right; exact List.mem_cons_self x xs
          · rw [if_neg hc]; left; rfl
        · right; exact List.mem_cons_of_mem x h
      · intro a ha
        rcases List.mem_cons.mp ha with rfl | ha
        · exact le_trans hx' hb
        · exact hall a ha

theorem pyMax_mem {α : Type} {key : α → Nat} {l : List α} {m : α}
    (h : pyMax key l = some m) : m ∈ l := by
  cases l with
  | nil => simp [pyMax] at h
  | cons x xs =>
      simp only [pyMax, Option.some.injEq] at h
      rcases (pyMax_spec key xs x).1 with h1 | h1
      · rw [h] at h1; rw [h1]; exact List.mem_cons_self x xs
      · rw [h] at h1; exact List.mem_cons_of_mem x h1

theorem pyMax_isMax {α : Type} {key : α → Nat} {l : List α} {m : α}
    (h : pyMax key l = some m) : ∀ a ∈ l, key a ≤ key m := by
  cases l with
  | nil => simp [pyMax] at h
  | cons x xs =>
      simp only [pyMax, Option.some.injEq] at h
      intro a ha
      rcases (pyMax_spec key xs x) with ⟨_, hb, hall⟩
      rcases List.mem_cons.mp ha with rfl | ha
      · rw [← h]; exact hb
      · rw [← h]; exact hall a ha

theorem pyMax_isSome {α : Type} (key : α → Nat) {l : List α} (h : l ≠ []) :
    (pyMax key l).isSome := by
  cases l with
  | nil => exact absurd rfl h
  | cons x xs => simp [pyMax]

/-! ## Grouping lemmas -/

/-- Every value list stored by a `dictAppend` fold is non-empty. -/
theorem dictAppend_values_ne_nil {α : Type} {k : String} {v : α} :
    ∀ {l : List (String × List α)},
      (∀ p ∈ l, p.2 ≠ []) → ∀ p ∈ dictAppend k v l, p.2 ≠ [] := by
  intro l
  induction l with
  | nil => intro _ p hp; simp only [dictAppend, List.mem_singleton] at hp; simp [hp]
  | cons q rest ih =>
      intro h p hp
      cases q with
      | mk k' vs =>
          simp only [dictAppend] at hp
          by_cases hk : k' = k
          · rw [if_pos hk] at hp
            rcases List.mem_cons.mp hp with rfl | hp
            · simp
            · exact h _ (List.mem_cons_of_mem _ hp)
          · rw [if_neg hk] at hp
            rcases List.mem_cons.mp hp with rfl | hp
            · exact h _ (List.mem_cons_self _ _)
            · exact ih (fun q hq => h q (List.mem_cons_of_mem _ hq)) p hp

theorem groupsOf_values_ne_nil (pairs : List (String × String)) :
    ∀ p ∈ groupsOf pairs, p.2 ≠ [] := by
  suffices h : ∀ (ps : List (String × String)) (acc : List (String × List String)),
      (∀ p ∈ acc, p.2 ≠ []) →
      ∀ p ∈ ps.foldl (fun a q => dictAppend q.2 q.1 a) acc, p.2 ≠ [] by
    exact h pairs [] (by simp)
  intro ps
  induction ps with
  | nil => intro acc hacc; simpa using hacc
  | cons q rest ih =>
      intro acc hacc
      simp only [List.foldl_cons]
      exact ih _ (dictAppend_values_ne_nil hacc)

/-- Everything in a group of `groupsOf pairs` is paired with that root in
`pairs`. -/
theorem mem_group_mem_pairs {pairs : List (String × String)} {r l : String} :
    l ∈ (dictLookup r (groupsOf pairs)).getD [] → (l, r) ∈ pairs := by
  suffices h : ∀ (ps : List (String × String)) (acc : List (String × List String))
      (S : List (String × String)),
      (∀ r' l', l' ∈ (dictLookup r' acc).getD [] → (l', r') ∈ S) →
      (∀ q ∈ ps, q ∈ S) →
      ∀ r' l', l' ∈ (dictLookup r' (ps.foldl (fun a q => dictAppend q.2 q.1 a) acc)).getD [] →
        (l', r') ∈ S by
    intro hmem
    exact h pairs [] pairs (by simp [dictLookup]) (fun q hq => hq) r l hmem
  intro ps
  induction ps with
  | nil => intro acc S hacc _ r' l' hm; exact hacc r' l' hm
  | cons q rest ih =>
      intro acc S hacc hsub r' l' hm
      simp only [List.foldl_cons] at hm
      refine ih _ S ?_ (fun q' hq' => hsub q' (List.mem_cons_of_mem _ hq')) r' l' hm
      intro r'' l'' hm''
      by_cases hk : r'' = q.2
      · subst hk
        rw [dictLookup_dictAppend_self] at hm''
        simp only [Option.getD_some] at hm''
        rcases List.mem_append.mp hm'' with h1 | h1
        · exact hacc _ _ h1
        · simp only [List.mem_singleton] at h1
          subst h1
          exact hsub q (List.mem_cons_self _ _)
      · rw [dictLookup_dictAppend_ne hk] at hm''
        exact hacc _ _ hm''

/-! ## The per-root loop as a concatenation of per-root blocks -/

theorem rootStep_foldl_msgs (E : List (String × EntryData)) (G : List (String × List String)) :
    ∀ (roots : List String) (st : List Message × List String × Option String),
      (roots.foldl (rootStep E G) st).1 = st.1 ++ (roots.map (rootBranchMsgs E G)).flatten ∧
      (roots.foldl (rootStep E G) st).2.1 = st.2.1 ++ (roots.map (rootBranchTss E G)).flatten := by
  intro roots
  induction roots with
  | nil => intro st; simp
  | cons r rs ih =>
      intro st
      simp only [List.foldl_cons, List.map_cons, List.flatten_cons]
      rcases ih (rootStep E G st r) with ⟨h1, h2⟩
      constructor
      · rw [h1]
        cases hal : activeLeafOf E G r with
        | none => simp [rootStep, hal, rootBranchMsgs]
        | some al => simp [rootStep, hal, rootBranchMsgs]
      · rw [h2]
        cases hal : activeLeafOf E G r with
        | none => simp [rootStep, hal, rootBranchTss]
        | some al => simp [rootStep, hal, rootBranchTss]

theorem rootStep_foldl_leaf (E : List (String × EntryData)) (G : List (String × List String)) :
    ∀ (roots : List String) (st : List Message × List String × Option String),
      (∀ r ∈ roots, (activeLeafOf E G r).isSome) → st.2.2.isSome →
      ((roots.foldl (rootStep E G) st).2.2).isSome := by
  intro roots
  induction roots with
  | nil => intro st _ h; simpa using h
  | cons r rs ih =>
      intro st hall hst
      simp only [List.foldl_cons]
      refine ih _ (fun r' hr' => hall r' (List.mem_cons_of_mem _ hr')) ?_
      have := hall r (List.mem_cons_self _ _)
      cases hal : activeLeafOf E G r with
      | none => rw [hal] at this; simp at this
      | some al => simp [rootStep, hal]

/-- Every sorted root has a `some` active leaf (its group is a non-empty
recorded group). -/
theorem roots_activeLeaf_isSome (fmtTime : String → String) (lines : List (Option RawRecord)) :
    ∀ r ∈ theRoots fmtTime lines,
      (activeLeafOf (entriesOf fmtTime lines) (theGroups fmtTime lines) r).isSome := by
  intro r hr
  have hmem : r ∈ (theGroups fmtTime lines).map Prod.fst :=
    (sortLe_perm _ _).mem_iff.mp hr
  have hsome : (dictLookup r (theGroups fmtTime lines)).isSome := dictLookup_isSome_iff.mpr hmem
  rcases Option.isSome_iff_exists.mp hsome with ⟨ls, hls⟩
  have hne : ls ≠ [] := groupsOf_values_ne_nil _ (r, ls) (dictLookup_mem hls)
  unfold activeLeafOf
  rw [hls]
  simpa using pyMax_isSome (lineOf (entriesOf fmtTime lines)) hne

/-- When there is at least one entry and at least one candidate leaf,
`extract_active_branch` returns the assembled main-loop result. -/
theorem extract_eq_main (fmtTime : String → String) (size : Nat)
    (lines : List (Option RawRecord))
    (hE : entriesOf fmtTime lines ≠ []) (hL : theLeaves fmtTime lines ≠ []) :
    extract_active_branch fmtTime size lines =
      ⟨((theRoots fmtTime lines).foldl
          (rootStep (entriesOf fmtTime lines) (theGroups fmtTime lines)) ([], [], none)).1,
        size,
        ((theRoots fmtTime lines).foldl
          (rootStep (entriesOf fmtTime lines) (theGroups fmtTime lines)) ([], [], none)).2.2,
        ((theRoots fmtTime lines).foldl
          (rootStep (entriesOf fmtTime lines) (theGroups fmtTime lines)) ([], [], none)).2.1.head?,
        ((theRoots fmtTime lines).foldl
          (rootStep (entriesOf fmtTime lines) (theGroups fmtTime lines)) ([], [], none)).2.1.getLast?,
        orphansOf (entriesOf fmtTime lines)⟩ := by
  unfold extract_active_branch
  simp only []
  rw [show (buildEntries fmtTime lines).1 = entriesOf fmtTime lines from rfl,
      show (buildEntries fmtTime lines).2 = childrenOf fmtTime lines from rfl]
  rw [if_neg hE]
  rw [show leavesOf (entriesOf fmtTime lines) (childrenOf fmtTime lines) = theLeaves fmtTime lines
        from rfl]
  rw [if_neg hL]
  rfl

/-- `extract_active_branch` always reports the given byte size. -/
theorem extract_file_size (fmtTime : String → String) (size : Nat)
    (lines : List (Option RawRecord)) :
    (extract_active_branch fmtTime size lines).file_size = size := by
  unfold extract_active_branch
  by_cases hE : (buildEntries fmtTime lines).1 = []
  · simp [hE]
  · rw [if_neg hE]
    by_cases hL : leavesOf (buildEntries fmtTime lines).1 (buildEntries fmtTime lines).2 = []
    · simp [hL]
    · simp [hL]

/-! ## Leaf-to-root membership -/

theorem mem_leafToRoot_iff {E : List (String × EntryData)} {leaves : List String}
    {leaf root : String} :
    (leaf, root) ∈ leafToRootOf E leaves ↔
      leaf ∈ leaves ∧ walkToRoot E (E.length + 1) leaf [] = some root := by
  simp only [leafToRootOf, List.mem_filterMap, Option.map_eq_some']
  constructor
  · rintro ⟨a, ha, r', hw, heq⟩
    cases heq
    exact ⟨ha, hw⟩
  · rintro ⟨ha, hw⟩
    exact ⟨leaf, ha, root, hw, rfl⟩

/-! ## Claim C1 -/

/-- C1: for every root in the resolver's root list, the selected active leaf
is a member of that root's leaf group carrying the greatest stored
`sequence_index` (line number) among the group; and (whenever the resolver
reaches its main loop) the output message list is exactly the concatenation
of the active branches of the roots — so no entry that lies only on a branch
ending at a lower-index leaf contributes any message. -/
theorem c1_active_leaf_max (fmtTime : String → String) (size : Nat)
    (lines : List (Option RawRecord)) (r : String)
    (hr : r ∈ theRoots fmtTime lines) :
    (∃ m, activeLeafOf (entriesOf fmtTime lines) (theGroups fmtTime lines) r = some m ∧
       m ∈ groupLeaves fmtTime lines r ∧
       ∀ l ∈ groupLeaves fmtTime lines r,
         lineOf (entriesOf fmtTime lines) l ≤ lineOf (entriesOf fmtTime lines) m) ∧
    (entriesOf fmtTime lines ≠ [] → theLeaves fmtTime lines ≠ [] →
      (extract_active_branch fmtTime size lines).messages =
        ((theRoots fmtTime lines).map
          (rootBranchMsgs (entriesOf fmtTime lines) (theGroups fmtTime lines))).flatten) := by
  constructor
  · have hsome := roots_activeLeaf_isSome fmtTime lines r hr
    rcases Option.isSome_iff_exists.mp hsome with ⟨m, hm⟩
    refine ⟨m, hm, ?_, ?_⟩
    · exact pyMax_mem hm
    · exact pyMax_isMax hm
  · intro hE hL
    rw [extract_eq_main fmtTime size lines hE hL]
    simpa using
      (rootStep_foldl_msgs (entriesOf fmtTime lines) (theGroups fmtTime lines)
        (theRoots fmtTime lines) ([], [], none)).1

theorem c1_active_leaf_max_witness :
    (extract_active_branch fmtId 10 exRewind).messages =
      ((theRoots fmtId exRewind).map
        (rootBranchMsgs (entriesOf fmtId exRewind) (theGroups fmtId exRewind))).flatten ∧
    (∃ m, activeLeafOf (entriesOf fmtId exRewind) (theGroups fmtId exRewind) "a" = some m ∧
       m ∈ groupLeaves fmtId exRewind "a" ∧
       ∀ l ∈ groupLeaves fmtId exRewind "a",
         lineOf (entriesOf fmtId exRewind) l ≤ lineOf (entriesOf fmtId exRewind) m) :=
  ⟨(c1_active_leaf_max fmtId 10 exRewind "a" (by decide)).2 (by decide) (by decide),
   (c1_active_leaf_max fmtId 10 exRewind "a" (by decide)).1⟩

/-! ## Claim C2 -/

/-- C2 counterexample: in `exCycleLeaf`, leaf `"c"`'s upward walk revisits
`"a"` (the walk returns `none`), yet — contrary to the claim that the
last-visited node before the revisit becomes the leaf's root so that the
leaf still participates — `leaf_to_root` stays empty, no group is formed,
and extraction ends with no active leaf at all. -/
theorem c2_counterexample :
    ("c" ∈ theLeaves fmtId exCycleLeaf) ∧
    walkToRoot (entriesOf fmtId exCycleLeaf) ((entriesOf fmtId exCycleLeaf).length + 1)
      "c" [] = none ∧
    leafToRootOf (entriesOf fmtId exCycleLeaf) (theLeaves fmtId exCycleLeaf) = [] ∧
    (extract_active_branch fmtId 9 exCycleLeaf).active_leaf = none ∧
    (extract_active_branch fmtId 9 exCycleLeaf).messages = [] := by decide

/-- C2 (amended): a leaf whose upward walk exits without resolving a root
(in particular, by revisiting an already-visited entry) is assigned no root
at all: it appears in no root's leaf group and in no `leaf_to_root` pair,
so it participates in neither root grouping nor branch selection. -/
theorem c2_cycle_leaf_dropped (fmtTime : String → String)
    (lines : List (Option RawRecord)) (leaf : String)
    (hwalk : walkToRoot (entriesOf fmtTime lines)
      ((entriesOf fmtTime lines).length + 1) leaf [] = none) :
    (∀ r, leaf ∉ groupLeaves fmtTime lines r) ∧
    (∀ r, (leaf, r) ∉ leafToRootOf (entriesOf fmtTime lines) (theLeaves fmtTime lines)) := by
  have hpair : ∀ r, (leaf, r) ∉ leafToRootOf (entriesOf fmtTime lines) (theLeaves fmtTime lines) := by
    intro r hmem
    rcases mem_leafToRoot_iff.mp hmem with ⟨_, hw⟩
    rw [hwalk] at hw
    cases hw
  refine ⟨?_, hpair⟩
  intro r hmem
  exact hpair r (mem_group_mem_pairs hmem)

theorem c2_cycle_leaf_dropped_witness :
    ("c" ∉ groupLeaves fmtId exCycleLeaf "b") ∧
    (("c", "b") ∉ leafToRootOf (entriesOf fmtId exCycleLeaf) (theLeaves fmtId exCycleLeaf)) :=
  ⟨(c2_cycle_leaf_dropped fmtId exCycleLeaf "c" (by decide)).1 "b",
   (c2_cycle_leaf_dropped fmtId exCycleLeaf "c" (by decide)).2 "b"⟩

/-! ## Claim C5 -/

/-- C5 counterexample: in `exDupRoot` the root `"r1"` first appears in the
log before `"r2"` (line 1 versus line 2), but because the duplicate record
on line 4 overwrites `"r1"`'s stored line, the resolver orders `"r2"`'s
block before `"r1"`'s — the roots are *not* processed in the order they
first appeared in the log. -/
theorem c5_counterexample :
    List.indexOf "r1" (uuidsOf exDupRoot) < List.indexOf "r2" (uuidsOf exDupRoot) ∧
    theRoots fmtId exDupRoot = ["r2", "r1"] ∧
    (extract_active_branch fmtId 9 exDupRoot).messages =
      [⟨"User", "R2", ""⟩, ⟨"User", "A", ""⟩, ⟨"User", "R1d", ""⟩, ⟨"User", "B", ""⟩] := by
  decide

/-- C5 (amended): roots are processed in ascending order of the root entry's
*stored* `sequence_index` — the line of its last occurrence, which equals
first-appearance order only when ids are not duplicated — and the output is
the concatenation of the per-root message blocks, one contiguous block per
root, never interleaved. -/
theorem c5_roots_sorted_blocks (fmtTime : String → String) (size : Nat)
    (lines : List (Option RawRecord)) :
    List.Pairwise
      (fun a b => lineOf (entriesOf fmtTime lines) a ≤ lineOf (entriesOf fmtTime lines) b)
      (theRoots fmtTime lines) ∧
    (entriesOf fmtTime lines ≠ [] → theLeaves fmtTime lines ≠ [] →
      (extract_active_branch fmtTime size lines).messages =
        ((theRoots fmtTime lines).map
          (rootBranchMsgs (entriesOf fmtTime lines) (theGroups fmtTime lines))).flatten) := by
  constructor
  · have hp := sortLe_pairwise
      (fun a b => decide (lineOf (entriesOf fmtTime lines) a ≤ lineOf (entriesOf fmtTime lines) b))
      (fun a b => by
        rcases Nat.le_total (lineOf (entriesOf fmtTime lines) a)
          (lineOf (entriesOf fmtTime lines) b) with h | h
        · exact Or.inl (decide_eq_true h)
        · exact Or.inr (decide_eq_true h))
      (fun a b c h1 h2 =>
        decide_eq_true (le_trans (of_decide_eq_true h1) (of_decide_eq_true h2)))
      ((theGroups fmtTime lines).map (·.1))
    exact hp.imp (fun h => of_decide_eq_true h)
  · intro hE hL
    rw [extract_eq_main fmtTime size lines hE hL]
    simpa using
      (rootStep_foldl_msgs (entriesOf fmtTime lines) (theGroups fmtTime lines)
        (theRoots fmtTime lines) ([], [], none)).1

theorem c5_roots_sorted_blocks_witness :
    (extract_active_branch fmtId 9 exDupRoot).messages =
      ((theRoots fmtId exDupRoot).map
        (rootBranchMsgs (entriesOf fmtId exDupRoot) (theGroups fmtId exDupRoot))).flatten :=
  (c5_roots_sorted_blocks fmtId 9 exDupRoot).2 (by decide) (by decide)

/-! ## Claim C6 -/

/-- C6: whenever some non-side-branch childless entry exists, every
candidate leaf is childless and non-side-branch (no side-branch entry is
selected as a candidate); and when every childless entry is side-branch,
the candidate set falls back to all childless ids. -/
theorem c6_side_branch_exclusion (fmtTime : String → String)
    (lines : List (Option RawRecord)) :
    ((∃ p ∈ entriesOf fmtTime lines,
        dictLookup p.1 (childrenOf fmtTime lines) = none ∧ p.2.isSidechain = false) →
      ∀ c ∈ theLeaves fmtTime lines,
        dictLookup c (childrenOf fmtTime lines) = none ∧
        ∃ e, (c, e) ∈ entriesOf fmtTime lines ∧ e.isSidechain = false) ∧
    ((∀ p ∈ entriesOf fmtTime lines,
        dictLookup p.1 (childrenOf fmtTime lines) = none → p.2.isSidechain = true) →
      theLeaves fmtTime lines =
        (entriesOf fmtTime lines).filterMap
          (fun p => if dictLookup p.1 (childrenOf fmtTime lines) = none then some p.1 else none)) := by
  constructor
  · rintro ⟨p, hp, hcond⟩ c hc
    have hne : (entriesOf fmtTime lines).filterMap
        (fun p => if dictLookup p.1 (childrenOf fmtTime lines) = none ∧ p.2.isSidechain = false
                  then some p.1 else none) ≠ [] := by
      intro hnil
      have := List.filterMap_eq_nil_iff.mp hnil p hp
      rw [if_pos hcond] at this
      cases this
    rw [theLeaves, leavesOf] at hc
    simp only [if_neg hne] at hc
    rcases List.mem_filterMap.mp hc with ⟨q, hq, hqc⟩
    by_cases hcq : dictLookup q.1 (childrenOf fmtTime lines) = none ∧ q.2.isSidechain = false
    · rw [if_pos hcq] at hqc
      cases hqc
      exact ⟨hcq.1, q.2, by simpa using hq, hcq.2⟩
    · rw [if_neg hcq] at hqc
      cases hqc
  · intro hall
    have hnil : (entriesOf fmtTime lines).filterMap
        (fun p => if dictLookup p.1 (childrenOf fmtTime lines) = none ∧ p.2.isSidechain = false
                  then some p.1 else none) = [] := by
      refine List.filterMap_eq_nil_iff.mpr ?_
      intro p hp
      by_cases hcp : dictLookup p.1 (childrenOf fmtTime lines) = none ∧ p.2.isSidechain = false
      · have := hall p hp hcp.1
        rw [this] at hcp
        cases hcp.2
      · rw [if_neg hcp]
    rw [theLeaves, leavesOf]
    simp only [if_pos hnil]

theorem c6_side_branch_exclusion_witness :
    ∀ c ∈ theLeaves fmtId exSide,
      dictLookup c (childrenOf fmtId exSide) = none ∧
      ∃ e, (c, e) ∈ entriesOf fmtId exSide ∧ e.isSidechain = false :=
  (c6_side_branch_exclusion fmtId exSide).1 (by decide)

/-! ## Claim C3 -/

/-- A fold that appends one optional element per step is a `filterMap`. -/
theorem foldl_append_toList {α β : Type} (g : β → Option α) (f : List α → β → List α)
    (hf : ∀ (acc : List α) (b : β), f acc b = acc ++ (g b).toList) :
    ∀ (l : List β) (acc : List α), l.foldl f acc = acc ++ l.filterMap g := by
  intro l
  induction l with
  | nil => intro acc; simp
  | cons b bs ih =>
      intro acc
      rw [List.foldl_cons, hf, ih, List.filterMap_cons]
      cases hgb : g b with
      | none => simp
      | some t => simp

/-- The `text_parts` fold equals a `filterMap`: object blocks of kind
`"text"` contribute their stripped text when non-empty, plain string blocks
are appended verbatim, everything else is dropped. -/
theorem textPartsOf_eq_amended : ∀ (c : Content), textPartsOf c = amendedTextParts c := by
  intro c
  cases c with
  | str s => rfl
  | list blocks =>
      simp only [textPartsOf, amendedTextParts]
      rw [foldl_append_toList
        (fun b =>
          match b with
          | ContentBlock.obj btype btext =>
              if btype = some "text" then
                (if pyStrip btext ≠ "" then some (pyStrip btext) else none)
              else none
          | ContentBlock.str s => some s
          | ContentBlock.other => none)
        (fun parts b =>
          match b with
          | ContentBlock.obj btype btext =>
              if btype = some "text" then
                let text := pyStrip btext
                if text ≠ "" then parts ++ [text] else parts
              else parts
          | ContentBlock.str s => parts ++ [s]
          | ContentBlock.other => parts)
        (by
          intro acc b
          cases b with
          | obj btype btext =>
              by_cases ht : btype = some "text"
              · by_cases hs : pyStrip btext = ""
                · simp [ht, hs]
                · simp [ht, hs]
              · simp [ht]
          | str s => simp
          | other => simp)
        blocks []]
      simp
  | other => rfl

/-- C3 counterexample: for a user record whose list content holds the single
plain string block `" x "`, the code extracts the text `" x "` verbatim
(untrimmed, not dropped), whereas the claim — under which a plain string
block has no recognized text kind and is ignored — predicts no text part at
all. -/
theorem c3_counterexample :
    (textDataOf fmtId exStrBlockRec).map (·.text) = some " x " ∧
    claimedTextParts exStrBlockRec.content = [] ∧
    (" x " : String) ≠ String.intercalate "\n\n" (claimedTextParts exStrBlockRec.content) := by
  decide

/-- C3 (amended): for user/assistant records, string content is taken
verbatim; list content contributes, in order, the stripped text of each
`"text"`-kind object block when non-empty *and every plain string block
verbatim (untrimmed, even when empty)*; all other blocks are ignored; a
message is produced exactly when the resulting part list is non-empty, its
text being the parts joined by two newlines. -/
theorem c3_text_extraction (fmtTime : String → String) (rec : RawRecord)
    (htype : rec.type = "user" ∨ rec.type = "assistant") :
    textPartsOf rec.content = amendedTextParts rec.content ∧
    (∀ s, rec.content = .str s → textPartsOf rec.content = [s]) ∧
    textDataOf fmtTime rec =
      (if amendedTextParts rec.content = [] then none
       else some ⟨pyCapitalize rec.type,
                  String.intercalate "\n\n" (amendedTextParts rec.content),
                  timeStrOf fmtTime rec.timestamp⟩) := by
  refine ⟨textPartsOf_eq_amended rec.content, ?_, ?_⟩
  · intro s hs
    rw [hs]
    rfl
  · rw [textDataOf, if_pos htype, textPartsOf_eq_amended rec.content]
    by_cases h : amendedTextParts rec.content = []
    · simp [h]
    · simp [h]

theorem c3_text_extraction_witness :
    textPartsOf exStrBlockRec.content = amendedTextParts exStrBlockRec.content ∧
    textDataOf fmtId exStrBlockRec =
      (if amendedTextParts exStrBlockRec.content = [] then none
       else some ⟨pyCapitalize exStrBlockRec.type,
                  String.intercalate "\n\n" (amendedTextParts exStrBlockRec.content),
                  timeStrOf fmtId exStrBlockRec.timestamp⟩) :=
  ⟨(c3_text_extraction fmtId exStrBlockRec (by decide)).1,
   (c3_text_extraction fmtId exStrBlockRec (by decide)).2.2⟩

/-! ## Claim C4 -/

/-- C4 counterexample: `exCycleOnly` has two entries with ids and zero
extractable text, yet extraction returns `none` for the active leaf (every
id has children, so the leaf list is empty) — the claim's promise of a valid
non-null active-leaf id fails. -/
theorem c4_counterexample :
    entriesOf fmtId exCycleOnly ≠ [] ∧
    (∀ p ∈ entriesOf fmtId exCycleOnly, p.2.text_data = none) ∧
    (extract_active_branch fmtId 7 exCycleOnly).messages = [] ∧
    (extract_active_branch fmtId 7 exCycleOnly).active_leaf = none := by decide

/-- No-text entry maps make every branch empty. -/
theorem branchMsgs_eq_nil {E : List (String × EntryData)}
    (htext : ∀ p ∈ E, p.2.text_data = none) (al : String) :
    branchMsgs E al = [] := by
  rw [branchMsgs, List.filterMap_eq_nil_iff]
  intro u _
  cases hu : dictLookup u E with
  | none => rfl
  | some e =>
      have h := htext (u, e) (dictLookup_mem hu)
      simp only [Option.some_bind]
      exact h

/-- C4 (amended): when the log has entries but zero extractable text *and at
least one leaf resolves to a root*, extraction returns an empty message list
with a non-null active-leaf id; in every zero-message case `sync_session`
records the state as processed — it writes `{file_size, leaf_uuid: None}`
(so an unchanged size is skipped next time) and returns `False` without
writing a part file. -/
theorem c4_zero_text (fmtTime : String → String) (size : Nat)
    (lines : List (Option RawRecord)) (prev : Option StoredState)
    (hroots : theRoots fmtTime lines ≠ [])
    (htext : ∀ p ∈ entriesOf fmtTime lines, p.2.text_data = none)
    (hprev : prev.bind (·.file_size) ≠ some size) :
    (extract_active_branch fmtTime size lines).messages = [] ∧
    ((extract_active_branch fmtTime size lines).active_leaf).isSome ∧
    sync_session fmtTime prev size lines =
      ⟨false, some ⟨some size, none, none, none, none⟩, none⟩ := by
  have hL : theLeaves fmtTime lines ≠ [] := by
    intro h
    apply hroots
    simp [theRoots, sortedRootsOf, theGroups, leafToRootOf, groupsOf, h, sortLe]
  have hE : entriesOf fmtTime lines ≠ [] := by
    intro h
    apply hL
    simp [theLeaves, leavesOf, h]
  have hmsgs : (extract_active_branch fmtTime size lines).messages = [] := by
    rw [extract_eq_main fmtTime size lines hE hL]
    have h1 := (rootStep_foldl_msgs (entriesOf fmtTime lines) (theGroups fmtTime lines)
      (theRoots fmtTime lines) ([], [], none)).1
    simp only [h1, List.nil_append]
    rw [List.flatten_eq_nil_iff]
    intro l hl
    rcases List.mem_map.mp hl with ⟨r, _, hr⟩
    rw [← hr, rootBranchMsgs]
    cases hal : activeLeafOf (entriesOf fmtTime lines) (theGroups fmtTime lines) r with
    | none => rfl
    | some al => exact branchMsgs_eq_nil htext al
  have hleaf : ((extract_active_branch fmtTime size lines).active_leaf).isSome := by
    rw [extract_eq_main fmtTime size lines hE hL]
    cases hroots' : theRoots fmtTime lines with
    | nil => exact absurd hroots' hroots
    | cons r rs =>
        simp only [List.foldl_cons]
        have hr : (activeLeafOf (entriesOf fmtTime lines) (theGroups fmtTime lines) r).isSome := by
          apply roots_activeLeaf_isSome
          rw [hroots']
          exact List.mem_cons_self _ _
        rcases Option.isSome_iff_exists.mp hr with ⟨al, hal⟩
        refine rootStep_foldl_leaf _ _ rs _ ?_ ?_
        · intro r' hr'
          apply roots_activeLeaf_isSome
          rw [hroots']
          exact List.mem_cons_of_mem _ hr'
        · simp [rootStep, hal]
  refine ⟨hmsgs, hleaf, ?_⟩
  rw [sync_session, if_neg hprev]
  simp only [hmsgs, if_pos rfl, extract_file_size]
  rfl

theorem c4_zero_text_witness :
    (extract_active_branch fmtId 5 exBareSingle).messages = [] ∧
    ((extract_active_branch fmtId 5 exBareSingle).active_leaf).isSome ∧
    sync_session fmtId none 5 exBareSingle =
      ⟨false, some ⟨some 5, none, none, none, none⟩, none⟩ :=
  c4_zero_text fmtId 5 exBareSingle none (by decide) (by decide) (by decide)

/-! ## Claim C9 -/

/-- C9 counterexample: the recorded size is 4 and the log size is 5 (a
one-byte append), yet no part file is re-rendered — the log's single line is
undecodable, extraction yields no messages, and `sync_session` only rewrites
the state. -/
theorem c9_counterexample :
    (exPrev4.bind (·.file_size)) ≠ some 5 ∧
    sync_session fmtId exPrev4 5 [none] =
      ⟨false, some ⟨some 5, none, none, none, none⟩, none⟩ ∧
    (sync_session fmtId exPrev4 5 [none]).wrotePart = none := by decide

/-- C9 (amended): when the recorded size equals the log size, `sync_session`
returns `False` and writes neither part nor state; when it differs, a full
re-extraction runs and the state is always rewritten, but the part file is
re-rendered only when the extraction yields at least one message. -/
theorem c9_size_gate (fmtTime : String → String) (prev : Option StoredState)
    (size : Nat) (lines : List (Option RawRecord)) :
    ((prev.bind (·.file_size)) = some size →
      sync_session fmtTime prev size lines = ⟨false, none, none⟩) ∧
    ((prev.bind (·.file_size)) ≠ some size →
      ((sync_session fmtTime prev size lines).wroteState).isSome ∧
      (sync_session fmtTime prev size lines).wrotePart =
        (if (extract_active_branch fmtTime size lines).messages = [] then none
         else some (format_messages (extract_active_branch fmtTime size lines).messages)) ∧
      ((sync_session fmtTime prev size lines).updated = true ↔
        (extract_active_branch fmtTime size lines).messages ≠ [])) := by
  constructor
  · intro h
    rw [sync_session, if_pos h]
  · intro h
    rw [sync_session, if_neg h]
    by_cases hm : (extract_active_branch fmtTime size lines).messages = []
    · simp [hm]
    · simp [hm]

theorem c9_size_gate_witness :
    sync_session fmtId exPrev7 7 exRewind = ⟨false, none, none⟩ ∧
    ((sync_session fmtId exPrev4 5 [none]).wroteState).isSome :=
  ⟨(c9_size_gate fmtId exPrev7 7 exRewind).1 (by decide),
   ((c9_size_gate fmtId exPrev4 5 [none]).2 (by decide)).1⟩

/-! ## Claim C10: totality of the walks and skip-and-continue parsing -/

theorem length_filter_mono {α : Type} {p q : α → Bool}
    (h : ∀ x, p x = true → q x = true) :
    ∀ (l : List α), (l.filter p).length ≤ (l.filter q).length := by
  intro l
  induction l with
  | nil => simp
  | cons x xs ih =>
      by_cases hp : p x = true
      · rw [List.filter_cons_of_pos hp, List.filter_cons_of_pos (h x hp)]
        simpa using ih
      · rw [List.filter_cons_of_neg (by simpa using hp)]
        by_cases hq : q x = true
        · rw [List.filter_cons_of_pos hq]
          exact le_trans ih (by simp)
        · rw [List.filter_cons_of_neg (by simpa using hq)]
          exact ih

/-- Marking one more unvisited key as visited strictly shrinks the count of
unvisited keys. -/
theorem length_filter_cons_vis_lt {c : String} {vis : List String} :
    ∀ {keys : List String}, c ∈ keys → c ∉ vis →
      (keys.filter (fun k => decide (k ∉ c :: vis))).length <
        (keys.filter (fun k => decide (k ∉ vis))).length := by
  intro keys
  induction keys with
  | nil => intro hc; cases hc
  | cons k ks ih =>
      intro hc hcv
      by_cases hkc : k = c
      · subst hkc
        rw [List.filter_cons_of_neg (by simp), List.filter_cons_of_pos (by simpa using hcv)]
        refine Nat.lt_succ_of_le (length_filter_mono ?_ ks)
        intro x hx
        simp only [decide_eq_true_eq] at hx ⊢
        intro hmem
        exact hx (List.mem_cons_of_mem _ hmem)
      · have hc' : c ∈ ks := by
          rcases List.mem_cons.mp hc with h | h
          · exact absurd h.symm hkc
          · exact h
        by_cases hkv : k ∈ vis
        · rw [List.filter_cons_of_neg (by simp [hkv]),
              List.filter_cons_of_neg (by simp [hkv])]
          exact ih hc' hcv
        · rw [List.filter_cons_of_pos (by simp [hkv, hkc]),
              List.filter_cons_of_pos (by simpa using hkv)]
          exact Nat.succ_lt_succ (ih hc' hcv)

/-- The root walk stabilizes: any two fuels exceeding the number of
unvisited entry keys produce the same answer — the Python `while` loop
terminates. -/
theorem walkToRoot_stable (E : List (String × EntryData)) :
    ∀ (n : Nat) (c : String) (vis : List String) (fuel₁ fuel₂ : Nat),
      ((E.map Prod.fst).filter (fun k => decide (k ∉ vis))).length ≤ n →
      n < fuel₁ → n < fuel₂ →
      walkToRoot E fuel₁ c vis = walkToRoot E fuel₂ c vis := by
  intro n
  induction n with
  | zero =>
      intro c vis fuel₁ fuel₂ hlen h1 h2
      cases fuel₁ with
      | zero => omega
      | succ a =>
          cases fuel₂ with
          | zero => omega
          | succ b =>
              simp only [walkToRoot]
              by_cases hc : c = ""
              · simp [hc]
              · simp only [if_neg hc]
                cases hlk : dictLookup c E with
                | none => rfl
                | some e =>
                    by_cases hv : c ∈ vis
                    · simp [hv]
                    · exfalso
                      have hmem : c ∈ E.map Prod.fst :=
                        List.mem_map_of_mem Prod.fst (dictLookup_mem hlk)
                      have : c ∈ (E.map Prod.fst).filter (fun k => decide (k ∉ vis)) :=
                        List.mem_filter.mpr ⟨hmem, by simpa using hv⟩
                      have := List.length_pos_of_mem this
                      omega
  | succ n ih =>
      intro c vis fuel₁ fuel₂ hlen h1 h2
      cases fuel₁ with
      | zero => omega
      | succ a =>
          cases fuel₂ with
          | zero => omega
          | succ b =>
              simp only [walkToRoot]
              by_cases hc : c = ""
              · simp [hc]
              · simp only [if_neg hc]
                cases hlk : dictLookup c E with
                | none => rfl
                | some e =>
                    by_cases hv : c ∈ vis
                    · simp [hv]
                    · simp only [if_neg hv]
                      by_cases hp : e.parentUuid = "" ∨ dictLookup e.parentUuid E = none
                      · simp [hp]
                      · simp only [if_neg hp]
                        have hmem : c ∈ E.map Prod.fst :=
                          List.mem_map_of_mem Prod.fst (dictLookup_mem hlk)
                        have hdec := length_filter_cons_vis_lt hmem hv
                        exact ih e.parentUuid (c :: vis) a b (by omega) (by omega) (by omega)

/-- Same stabilization for the path-collection walk. -/
theorem collectPath_stable (E : List (String × EntryData)) :
    ∀ (n : Nat) (c : String) (vis : List String) (fuel₁ fuel₂ : Nat),
      ((E.map Prod.fst).filter (fun k => decide (k ∉ vis))).length ≤ n →
      n < fuel₁ → n < fuel₂ →
      collectPath E fuel₁ c vis = collectPath E fuel₂ c vis := by
  intro n
  induction n with
  | zero =>
      intro c vis fuel₁ fuel₂ hlen h1 h2
      cases fuel₁ with
      | zero => omega
      | succ a =>
          cases fuel₂ with
          | zero => omega
          | succ b =>
              simp only [collectPath]
              by_cases hc : c = ""
              · simp [hc]
              · simp only [if_neg hc]
                cases hlk : dictLookup c E with
                | none => rfl
                | some e =>
                    by_cases hv : c ∈ vis
                    · simp [hv]
                    · exfalso
                      have hmem : c ∈ E.map Prod.fst :=
                        List.mem_map_of_mem Prod.fst (dictLookup_mem hlk)
                      have : c ∈ (E.map Prod.fst).filter (fun k => decide (k ∉ vis)) :=
                        List.mem_filter.mpr ⟨hmem, by simpa using hv⟩
                      have := List.length_pos_of_mem this
                      omega
  | succ n ih =>
      intro c vis fuel₁ fuel₂ hlen h1 h2
      cases fuel₁ with
      | zero => omega
      | succ a =>
          cases fuel₂ with
          | zero => omega
          | succ b =>
              simp only [collectPath]
              by_cases hc : c = ""
              · simp [hc]
              · simp only [if_neg hc]
                cases hlk : dictLookup c E with
                | none => rfl
                | some e =>
                    by_cases hv : c ∈ vis
                    · simp [hv]
                    · simp only [if_neg hv]
                      have hmem : c ∈ E.map Prod.fst :=
                        List.mem_map_of_mem Prod.fst (dictLookup_mem hlk)
                      have hdec := length_filter_cons_vis_lt hmem hv
                      rw [ih e.parentUuid (c :: vis) a b (by omega) (by omega) (by omega)]

/-- C10: active-branch extraction is total on every finite sequence of
decoded records.  (i) The parent walks terminate: at the fuel
`entries.length + 1` the extractor uses, both walks have stabilized, so no
fuel is ever exhausted — the embedding's result is the Python loop's limit.
(ii) Undecodable lines and records without an id are skipped (only the line
counter advances).  (iii) Content that is neither a string nor a list
yields no text.  (iv) A node whose parent id is missing or unknown is taken
as a root by the walk. -/
theorem c10_extraction_total (fmtTime : String → String)
    (lines : List (Option RawRecord)) (fuel₁ fuel₂ : Nat) (c : String)
    (h₁ : (entriesOf fmtTime lines).length + 1 ≤ fuel₁)
    (h₂ : (entriesOf fmtTime lines).length + 1 ≤ fuel₂) :
    (walkToRoot (entriesOf fmtTime lines) fuel₁ c [] =
       walkToRoot (entriesOf fmtTime lines) fuel₂ c [] ∧
     collectPath (entriesOf fmtTime lines) fuel₁ c [] =
       collectPath (entriesOf fmtTime lines) fuel₂ c []) ∧
    (∀ (st : List (String × EntryData) × List (String × List String) × Nat)
       (bad : Option RawRecord),
       (bad = none ∨ ∃ r, bad = some r ∧ r.uuid = "") →
       buildStep fmtTime st bad = (st.1, st.2.1, st.2.2 + 1)) ∧
    (∀ (rec : RawRecord), rec.content = Content.other → textDataOf fmtTime rec = none) ∧
    (∀ (E : List (String × EntryData)) (u : String) (e : EntryData)
       (vis : List String) (fuel : Nat),
       u ≠ "" → dictLookup u E = some e → u ∉ vis →
       (e.parentUuid = "" ∨ dictLookup e.parentUuid E = none) →
       walkToRoot E (fuel + 1) u vis = some u) := by
  have hkeys : (((entriesOf fmtTime lines).map Prod.fst).filter
      (fun k => decide (k ∉ ([] : List String)))).length = (entriesOf fmtTime lines).length := by
    simp
  refine ⟨⟨?_, ?_⟩, ?_, ?_, ?_⟩
  · exact walkToRoot_stable (entriesOf fmtTime lines) (entriesOf fmtTime lines).length c []
      fuel₁ fuel₂ (le_of_eq hkeys) (by omega) (by omega)
  · exact collectPath_stable (entriesOf fmtTime lines) (entriesOf fmtTime lines).length c []
      fuel₁ fuel₂ (le_of_eq hkeys) (by omega) (by omega)
  · rintro st bad (rfl | ⟨r, rfl, hr⟩)
    · rfl
    · simp [buildStep, hr]
  · intro rec hco
    rw [textDataOf]
    by_cases ht : rec.type = "user" ∨ rec.type = "assistant"
    · rw [if_pos ht]
      simp [hco, textPartsOf]
    · rw [if_neg ht]
  · intro E u e vis fuel hu hlk hv hp
    simp only [walkToRoot, if_neg hu]
    rw [hlk]
    simp [hv, hp]

theorem c10_extraction_total_witness :
    (walkToRoot (entriesOf fmtId exRewind) 4 "c" [] =
       walkToRoot (entriesOf fmtId exRewind) 7 "c" [] ∧
     collectPath (entriesOf fmtId exRewind) 4 "c" [] =
       collectPath (entriesOf fmtId exRewind) 7 "c" []) ∧
    (∀ (st : List (String × EntryData) × List (String × List String) × Nat)
       (bad : Option RawRecord),
       (bad = none ∨ ∃ r, bad = some r ∧ r.uuid = "") →
       buildStep fmtId st bad = (st.1, st.2.1, st.2.2 + 1)) ∧
    (∀ (rec : RawRecord), rec.content = Content.other → textDataOf fmtId rec = none) ∧
    (∀ (E : List (String × EntryData)) (u : String) (e : EntryData)
       (vis : List String) (fuel : Nat),
       u ≠ "" → dictLookup u E = some e → u ∉ vis →
       (e.parentUuid = "" ∨ dictLookup e.parentUuid E = none) →
       walkToRoot E (fuel + 1) u vis = some u) :=
  c10_extraction_total fmtId exRewind 4 7 "c" (by decide) (by decide)

/-! ## Claim C7: resolution of one pending orphan id -/

section ScanLemmas

variable {ao : List (String × String)} {B X : String}

/-- A line that cannot hit `X` leaves `B`'s edge and `X`'s pending status
unchanged (given that `X` is the only id resolving to `B`). -/
theorem scanLine_preserveB (hOnly : ∀ y, dictLookup y ao = some B → y = X)
    (src : String) (st : List (String × String) × List String) (line : Option RawRecord)
    (hnot : ∀ rec : RawRecord, line = some rec → rec.uuid = X → X ∉ st.2) :
    dictLookup B (scanLine ao src st line).1 = dictLookup B st.1 ∧
    (X ∈ (scanLine ao src st line).2 ↔ X ∈ st.2) := by
  cases line with
  | none => exact ⟨rfl, Iff.rfl⟩
  | some rec =>
      simp only [scanLine]
      by_cases hm : rec.uuid ∈ st.2
      · rw [if_pos hm]
        have hne : rec.uuid ≠ X := by
          intro h
          exact (hnot rec rfl h) (h ▸ hm)
        cases hlk : dictLookup rec.uuid ao with
        | none => exact ⟨rfl, Iff.rfl⟩
        | some child =>
            dsimp only
            have hcB : child ≠ B := by
              intro h
              exact hne (hOnly rec.uuid (h ▸ hlk))
            constructor
            · by_cases hcs : child ≠ src
              · rw [if_pos hcs]
                exact dictLookup_dictInsert_ne (Ne.symm hcB)
              · rw [if_neg hcs]
            · simp [List.mem_filter, Ne.symm hne]
      · rw [if_neg hm]
        exact ⟨rfl, Iff.rfl⟩

/-- Scanning lines that cannot hit `X` preserves `B`'s edge and `X`'s
pending status. -/
theorem scanLines_preserveB (hOnly : ∀ y, dictLookup y ao = some B → y = X) (src : String) :
    ∀ (lines : List (Option RawRecord)) (st : List (String × String) × List String),
      (X ∉ st.2 ∨ X ∉ uuidsOf lines) →
      dictLookup B (lines.foldl (scanLine ao src) st).1 = dictLookup B st.1 ∧
      (X ∈ (lines.foldl (scanLine ao src) st).2 ↔ X ∈ st.2) := by
  intro lines
  induction lines with
  | nil => intro st _; exact ⟨rfl, Iff.rfl⟩
  | cons line rest ih =>
      intro st hno
      have hnot : ∀ rec : RawRecord, line = some rec → rec.uuid = X → X ∉ st.2 := by
        intro rec hline hX
        rcases hno with h | h
        · exact h
        · exfalso
          apply h
          rw [hline]
          simp only [uuidsOf, List.filterMap_cons, Option.map_some']
          rw [← hX] at *
          exact List.mem_cons_self _ _
      have h1 := scanLine_preserveB hOnly src st line hnot
      have hno' : X ∉ (scanLine ao src st line).2 ∨ X ∉ uuidsOf rest := by
        rcases hno with h | h
        · left; rw [h1.2]; exact h
        · right
          intro hmem
          apply h
          cases line with
          | none => simpa [uuidsOf] using hmem
          | some rec =>
              simp only [uuidsOf, List.filterMap_cons, Option.map_some']
              exact List.mem_cons_of_mem _ hmem
      have h2 := ih (scanLine ao src st line) hno'
      exact ⟨h2.1.trans h1.1, h2.2.trans h1.2⟩

/-- Scanning a line list that does contain `X` (with `X` still pending)
records the edge `B → src` — unless the hit is in `B`'s own file — and
removes `X` from the pending set. -/
theorem scanLines_hit (hOnly : ∀ y, dictLookup y ao = some B → y = X)
    (hlk : dictLookup X ao = some B) (src : String) :
    ∀ (lines : List (Option RawRecord)) (st : List (String × String) × List String),
      X ∈ st.2 → X ∈ uuidsOf lines →
      dictLookup B (lines.foldl (scanLine ao src) st).1 =
        (if B ≠ src then some src else dictLookup B st.1) ∧
      X ∉ (lines.foldl (scanLine ao src) st).2 := by
  intro lines
  induction lines with
  | nil => intro st _ hX; simp [uuidsOf] at hX
  | cons line rest ih =>
      intro st hpend hX
      cases line with
      | none =>
          simp only [uuidsOf, List.filterMap_cons] at hX
          exact ih st hpend (by simpa [uuidsOf] using hX)
      | some rec =>
          by_cases huuid : rec.uuid = X
          · simp only [List.foldl_cons, scanLine, huuid, if_pos hpend, hlk]
            have hXout : X ∉ (st.2.filter (· ≠ X)) := by
              intro hmem
              have := (List.mem_filter.mp hmem).2
              simp at this
            by_cases hBs : B ≠ src
            · rw [if_pos hBs]
              have h := scanLines_preserveB hOnly src rest
                ((dictInsert B src st.1, st.2.filter (· ≠ X))) (Or.inl hXout)
              refine ⟨?_, ?_⟩
              · rw [h.1, if_pos hBs]
                exact dictLookup_dictInsert_self
              · rw [h.2]
                exact hXout
            · rw [if_neg hBs]
              have h := scanLines_preserveB hOnly src rest
                ((st.1, st.2.filter (· ≠ X))) (Or.inl hXout)
              refine ⟨?_, ?_⟩
              · rw [h.1, if_neg hBs]
              · rw [h.2]
                exact hXout
          · have hXrest : X ∈ uuidsOf rest := by
              simp only [uuidsOf, List.filterMap_cons, Option.map_some'] at hX
              rcases List.mem_cons.mp hX with h | h
              · exact absurd h.symm huuid
              · exact h
            have h1 := scanLine_preserveB hOnly src st (some rec)
              (fun rec' h hX' => absurd ((Option.some.inj h) ▸ hX') huuid)
            have h2 := ih (scanLine ao src st (some rec)) (h1.2.mpr hpend) hXrest
            rw [List.foldl_cons]
            refine ⟨?_, h2.2⟩
            rw [h2.1, h1.1]

/-- Files that cannot hit `X` (zero-length or not containing it) preserve
`B`'s edge and keep `X` pending. -/
theorem scanFiles_preserveB (hOnly : ∀ y, dictLookup y ao = some B → y = X) :
    ∀ (files : List LogFile) (st : List (String × String) × List String),
      X ∈ st.2 → (∀ f ∈ files, f.size = 0 ∨ X ∉ uuidsOf f.lines) →
      dictLookup B (files.foldl (scanFile ao) st).1 = dictLookup B st.1 ∧
      X ∈ (files.foldl (scanFile ao) st).2 := by
  intro files
  induction files with
  | nil => intro st hX _; exact ⟨rfl, hX⟩
  | cons f fs ih =>
      intro st hX hall
      simp only [List.foldl_cons, scanFile]
      rw [if_neg (List.ne_nil_of_mem hX)]
      rcases hall f (List.mem_cons_self _ _) with hsz | hnoX
      · rw [if_pos hsz]
        exact ih st hX (fun g hg => hall g (List.mem_cons_of_mem _ hg))
      · by_cases hsz : f.size = 0
        · rw [if_pos hsz]
          exact ih st hX (fun g hg => hall g (List.mem_cons_of_mem _ hg))
        · rw [if_neg hsz]
          have h1 := scanLines_preserveB hOnly f.sid f.lines st (Or.inr hnoX)
          have h2 := ih (f.lines.foldl (scanLine ao f.sid) st) (h1.2.mpr hX)
            (fun g hg => hall g (List.mem_cons_of_mem _ hg))
          exact ⟨h2.1.trans h1.1, h2.2⟩

/-- Once `X` is resolved, later files cannot touch `B`'s edge and `X` stays
out of the pending set. -/
theorem scanFiles_postB (hOnly : ∀ y, dictLookup y ao = some B → y = X) :
    ∀ (files : List LogFile) (st : List (String × String) × List String),
      X ∉ st.2 →
      dictLookup B (files.foldl (scanFile ao) st).1 = dictLookup B st.1 ∧
      X ∉ (files.foldl (scanFile ao) st).2 := by
  intro files
  induction files with
  | nil => intro st hX; exact ⟨rfl, hX⟩
  | cons f fs ih =>
      intro st hX
      simp only [List.foldl_cons, scanFile]
      by_cases hnil : st.2 = []
      · rw [if_pos hnil]
        exact ih st hX
      · rw [if_neg hnil]
        by_cases hsz : f.size = 0
        · rw [if_pos hsz]
          exact ih st hX
        · rw [if_neg hsz]
          have h1 := scanLines_preserveB hOnly f.sid f.lines st (Or.inl hX)
          have h2 := ih (f.lines.foldl (scanLine ao f.sid) st)
            (fun hmem => hX (h1.2.mp hmem))
          exact ⟨h2.1.trans h1.1, h2.2⟩

end ScanLemmas

/-- C7 counterexample: session `"s"` has pending orphan id `"x"`, which
occurs as a real entry id in *both* logs `"a"` and `"b"`.  Taking the claim
at the pair (A = log `"b"`, B = `"s"`), it demands the edge `s → b`; but the
scan resolves `"x"` at the alphabetically first log `"a"` and discards it
from the pending set, so the recorded edge is `s → a`, not `s → b`. -/
theorem c7_counterexample :
    "x" ∈ uuidsOf (oneRecLog "b" "x" 5).lines ∧
    dictLookup "s" (detect_chains [("s", ["x"])] [oneRecLog "b" "x" 5, oneRecLog "a" "x" 5]) =
      some "a" ∧
    (some "a" : Option String) ≠ some "b" := by decide

/-- C7 (amended): let `X` be a pending orphan id whose recorded requester is
session `B` (and the only id recorded for `B`), and let `A` be the first
log, in ascending session-id order among the non-empty logs, that contains
`X` as an entry id.  If `A` is not `B`'s own log, chain detection records
the continuation edge `B continues A.sid`; if the hit is within `B` itself
it is skipped and no edge to `B` is recorded; in both cases `X` is removed
from the pending set. -/
theorem c7_chain_edge (sessions : List (String × List String)) (logs : List LogFile)
    (B X : String) (A : LogFile) (pre post : List LogFile)
    (hlk : dictLookup X (orphanIndexOf sessions) = some B)
    (hOnly : ∀ y, dictLookup y (orphanIndexOf sessions) = some B → y = X)
    (hsplit : sortLe (fun a b => strLe a.sid b.sid) logs = pre ++ A :: post)
    (hpre : ∀ f ∈ pre, f.size = 0 ∨ X ∉ uuidsOf f.lines)
    (hAsz : ¬A.size = 0) (hAX : X ∈ uuidsOf A.lines) :
    (B ≠ A.sid →
      dictLookup B (detect_chains sessions logs) = some A.sid) ∧
    (B = A.sid →
      dictLookup B (detect_chains sessions logs) = none) ∧
    X ∉ (detectChainsFull sessions logs).2 := by
  have hso : ¬sessions.filter (fun p => p.2 ≠ []) = [] := by
    intro h
    rw [orphanIndexOf, h] at hlk
    simp [allOrphansOf, dictLookup] at hlk
  have hXrem : X ∈ (orphanIndexOf sessions).map (·.1) :=
    List.mem_map_of_mem _ (dictLookup_mem hlk)
  have hfull : detectChainsFull sessions logs =
      post.foldl (scanFile (orphanIndexOf sessions))
        (scanFile (orphanIndexOf sessions)
          (pre.foldl (scanFile (orphanIndexOf sessions))
            ([], (orphanIndexOf sessions).map (·.1)))
          A) := by
    simp only [detectChainsFull, if_neg hso]
    rw [hsplit, List.foldl_append, List.foldl_cons]
  have hpre' := scanFiles_preserveB hOnly pre ([], (orphanIndexOf sessions).map (·.1))
    hXrem hpre
  have hA1 : scanFile (orphanIndexOf sessions)
      (pre.foldl (scanFile (orphanIndexOf sessions))
        ([], (orphanIndexOf sessions).map (·.1))) A =
      A.lines.foldl (scanLine (orphanIndexOf sessions) A.sid)
        (pre.foldl (scanFile (orphanIndexOf sessions))
          ([], (orphanIndexOf sessions).map (·.1))) := by
    rw [scanFile, if_neg (List.ne_nil_of_mem hpre'.2), if_neg hAsz]
  have hhit := scanLines_hit hOnly hlk A.sid A.lines
    (pre.foldl (scanFile (orphanIndexOf sessions)) ([], (orphanIndexOf sessions).map (·.1)))
    hpre'.2 hAX
  have hpost := scanFiles_postB hOnly post
    (A.lines.foldl (scanLine (orphanIndexOf sessions) A.sid)
      (pre.foldl (scanFile (orphanIndexOf sessions)) ([], (orphanIndexOf sessions).map (·.1))))
    hhit.2
  have hlookup : dictLookup B (detectChainsFull sessions logs).1 =
      (if B ≠ A.sid then some A.sid
       else dictLookup B
         (pre.foldl (scanFile (orphanIndexOf sessions))
           ([], (orphanIndexOf sessions).map (·.1))).1) := by
    rw [hfull, hA1, hpost.1, hhit.1]
  refine ⟨?_, ?_, ?_⟩
  · intro hBA
    rw [detect_chains, hlookup, if_pos hBA]
  · intro hBA
    rw [detect_chains, hlookup, if_neg (by simpa using hBA), hpre'.1]
    rfl
  · rw [hfull, hA1]
    exact hpost.2

theorem c7_chain_edge_witness :
    dictLookup "s" (detect_chains [("s", ["x"])] [oneRecLog "a" "x" 5]) = some "a" ∧
    "x" ∉ (detectChainsFull [("s", ["x"])] [oneRecLog "a" "x" 5]).2 := by
  have h := c7_chain_edge [("s", ["x"])] [oneRecLog "a" "x" 5] "s" "x"
    (oneRecLog "a" "x" 5) [] []
    (by decide)
    (by
      intro y hy
      by_cases hxy : y = "x"
      · exact hxy
      · exfalso
        have : dictLookup y (orphanIndexOf [("s", ["x"])]) = none := by
          rw [show orphanIndexOf [("s", ["x"])] = [("x", "s")] from rfl]
          simp [dictLookup, Ne.symm hxy]
        rw [this] at hy
        cases hy)
    (by decide) (by decide) (by decide) (by decide)
  exact ⟨h.1 (by decide), h.2.2⟩

/-! ## Claim C8: order-independence of chain detection -/

theorem strLeList_total : ∀ (xs ys : List Char),
    strLeList xs ys = true ∨ strLeList ys xs = true := by
  intro xs
  induction xs with
  | nil => intro ys; left; rfl
  | cons x xs ih =>
      intro ys
      cases ys with
      | nil => right; rfl
      | cons y ys =>
          rcases Nat.lt_trichotomy x.toNat y.toNat with h | h | h
          · left; simp [strLeList, h]
          · have h1 : ¬x.toNat < y.toNat := by omega
            have h2 : ¬y.toNat < x.toNat := by omega
            rcases ih ys with hh | hh
            · left; simp [strLeList, h1, h2, hh]
            · right; simp [strLeList, h1, h2, hh]
          · right; simp [strLeList, h]

theorem strLeList_trans : ∀ (xs ys zs : List Char),
    strLeList xs ys = true → strLeList ys zs = true → strLeList xs zs = true := by
  intro xs
  induction xs with
  | nil => intro ys zs _ _; rfl
  | cons x xs ih =>
      intro ys zs h1 h2
      cases ys with
      | nil => simp [strLeList] at h1
      | cons y ys =>
          cases zs with
          | nil => simp [strLeList] at h2
          | cons z zs =>
              by_cases hxy : x.toNat < y.toNat
              · by_cases hyz : y.toNat < z.toNat
                · simp [strLeList, show x.toNat < z.toNat from by omega]
                · by_cases hzy : z.toNat < y.toNat
                  · simp [strLeList, hyz, hzy] at h2
                  · simp [strLeList, show x.toNat < z.toNat from by omega]
              · by_cases hyx : y.toNat < x.toNat
                · simp [strLeList, hxy, hyx] at h1
                · simp only [strLeList, if_neg hxy, if_neg hyx] at h1
                  by_cases hyz : y.toNat < z.toNat
                  · simp [strLeList, show x.toNat < z.toNat from by omega]
                  · by_cases hzy : z.toNat < y.toNat
                    · simp [strLeList, hyz, hzy] at h2
                    · simp only [strLeList, if_neg hyz, if_neg hzy] at h2
                      have hxz : ¬x.toNat < z.toNat := by omega
                      have hzx : ¬z.toNat < x.toNat := by omega
                      simp only [strLeList, if_neg hxz, if_neg hzx]
                      exact ih ys zs h1 h2

theorem strLe_total : ∀ (a b : String), strLe a b = true ∨ strLe b a = true :=
  fun a b => strLeList_total a.data b.data

theorem strLe_trans : ∀ (a b c : String),
    strLe a b = true → strLe b c = true → strLe a c = true :=
  fun a b c => strLeList_trans a.data b.data c.data

theorem flatOrphanPairs_cons (p : String × List String) (ps : List (String × List String)) :
    flatOrphanPairs (p :: ps) = p.2.map (fun o => (o, p.1)) ++ flatOrphanPairs ps := by
  rw [flatOrphanPairs, List.flatMap_cons]
  rfl

theorem keys_flatOrphanPairs (ss : List (String × List String)) :
    (flatOrphanPairs ss).map Prod.fst = ss.flatMap (fun p => p.2) := by
  rw [flatOrphanPairs, List.map_flatMap]
  congr 1
  funext p
  rw [List.map_map, show (Prod.fst ∘ fun o => (o, p.1)) = id from rfl, List.map_id]

theorem flatMap_filter_sublist {α β : Type} (q : α → Bool) (f : α → List β) :
    ∀ (l : List α), ((l.filter q).flatMap f).Sublist (l.flatMap f) := by
  intro l
  induction l with
  | nil => simp
  | cons a as ih =>
      by_cases hq : q a = true
      · rw [List.filter_cons_of_pos hq, List.flatMap_cons, List.flatMap_cons]
        exact ih.append_left (f a)
      · rw [List.filter_cons_of_neg (by simpa using hq), List.flatMap_cons]
        exact ih.trans (List.sublist_append_right _ _)

theorem allOrphansOf_eq_foldPairs :
    ∀ (ss : List (String × List String)) (init : List (String × String)),
      ss.foldl (fun acc p => p.2.foldl (fun a orphan => dictInsert orphan p.1 a) acc) init =
      (flatOrphanPairs ss).foldl (fun a q => dictInsert q.1 q.2 a) init := by
  intro ss
  induction ss with
  | nil => intro init; rfl
  | cons p ps ih =>
      intro init
      rw [List.foldl_cons, ih, flatOrphanPairs_cons, List.foldl_append, List.foldl_map]

theorem foldl_dictInsert_of_nodup :
    ∀ (pairs : List (String × String)) (acc : List (String × String)),
      (((acc ++ pairs).map Prod.fst).Nodup) →
      pairs.foldl (fun a q => dictInsert q.1 q.2 a) acc = acc ++ pairs := by
  intro pairs
  induction pairs with
  | nil => intro acc _; simp
  | cons q ps ih =>
      intro acc hnd
      rw [List.foldl_cons]
      have hq : q.1 ∉ acc.map Prod.fst := by
        rw [List.map_append] at hnd
        have hdisj := List.disjoint_of_nodup_append hnd
        intro hmem
        exact hdisj hmem (by simp)
      rw [dictInsert_of_not_mem hq]
      rw [ih (acc ++ [q]) (by simpa using hnd)]
      simp

/-- With globally distinct orphan ids, `all_orphans` is exactly the flat
pair list. -/
theorem allOrphansOf_eq (ss : List (String × List String))
    (hnd : ((flatOrphanPairs ss).map Prod.fst).Nodup) :
    allOrphansOf ss = flatOrphanPairs ss := by
  rw [allOrphansOf, allOrphansOf_eq_foldPairs]
  exact foldl_dictInsert_of_nodup _ [] (by simpa using hnd)

/-- Looking up in an association list with distinct keys is invariant under
permutation. -/
theorem dictLookup_perm {α : Type} {l₁ l₂ : List (String × α)} (h : List.Perm l₁ l₂) :
    (l₁.map Prod.fst).Nodup → ∀ k, dictLookup k l₁ = dictLookup k l₂ := by
  induction h with
  | nil => intro _ k; rfl
  | cons p h ih =>
      intro hnd k
      cases p with
      | mk k' v =>
          simp only [List.map_cons, List.nodup_cons] at hnd
          by_cases hk : k' = k
          · simp [dictLookup, hk]
          · simp only [dictLookup, if_neg hk]
            exact ih hnd.2 k
  | swap x y t =>
      intro hnd k
      cases x with
      | mk kx vx =>
          cases y with
          | mk ky vy =>
              simp only [List.map_cons, List.nodup_cons, List.mem_cons] at hnd
              have hne : ky ≠ kx := fun h => hnd.1 (Or.inl h)
              by_cases h1 : ky = k
              · have h2 : ¬kx = k := fun hh => hne (h1.trans hh.symm)
                simp [dictLookup, h1, h2]
              · by_cases h2 : kx = k
                · simp [dictLookup, h1, h2]
                · simp [dictLookup, h1, h2]
  | trans h₁ h₂ ih₁ ih₂ =>
      intro hnd k
      exact (ih₁ hnd k).trans (ih₂ ((List.Perm.map Prod.fst h₁).nodup hnd) k)

theorem scanLine_congr {ao₁ ao₂ : List (String × String)}
    (hlk : ∀ k, dictLookup k ao₁ = dictLookup k ao₂) (src : String)
    {st₁ st₂ : List (String × String) × List String}
    (hc : st₁.1 = st₂.1) (hr : List.Perm st₁.2 st₂.2) (line : Option RawRecord) :
    (scanLine ao₁ src st₁ line).1 = (scanLine ao₂ src st₂ line).1 ∧
    List.Perm (scanLine ao₁ src st₁ line).2 (scanLine ao₂ src st₂ line).2 := by
  cases line with
  | none => exact ⟨hc, hr⟩
  | some rec =>
      simp only [scanLine]
      by_cases hm : rec.uuid ∈ st₁.2
      · rw [if_pos hm, if_pos (hr.mem_iff.mp hm), ← hlk rec.uuid]
        cases hres : dictLookup rec.uuid ao₁ with
        | none => exact ⟨hc, hr⟩
        | some child =>
            dsimp only
            exact ⟨by rw [hc], hr.filter _⟩
      · rw [if_neg hm, if_neg (fun hh => hm (hr.mem_iff.mpr hh))]
        exact ⟨hc, hr⟩

theorem scanLines_congr {ao₁ ao₂ : List (String × String)}
    (hlk : ∀ k, dictLookup k ao₁ = dictLookup k ao₂) (src : String) :
    ∀ (lines : List (Option RawRecord)) {st₁ st₂ : List (String × String) × List String},
      st₁.1 = st₂.1 → List.Perm st₁.2 st₂.2 →
      (lines.foldl (scanLine ao₁ src) st₁).1 = (lines.foldl (scanLine ao₂ src) st₂).1 ∧
      List.Perm (lines.foldl (scanLine ao₁ src) st₁).2 (lines.foldl (scanLine ao₂ src) st₂).2 := by
  intro lines
  induction lines with
  | nil => intro st₁ st₂ hc hr; exact ⟨hc, hr⟩
  | cons line rest ih =>
      intro st₁ st₂ hc hr
      have h := scanLine_congr hlk src hc hr line
      simp only [List.foldl_cons]
      exact ih h.1 h.2

theorem scanFile_congr {ao₁ ao₂ : List (String × String)}
    (hlk : ∀ k, dictLookup k ao₁ = dictLookup k ao₂)
    {st₁ st₂ : List (String × String) × List String}
    (hc : st₁.1 = st₂.1) (hr : List.Perm st₁.2 st₂.2) (f : LogFile) :
    (scanFile ao₁ st₁ f).1 = (scanFile ao₂ st₂ f).1 ∧
    List.Perm (scanFile ao₁ st₁ f).2 (scanFile ao₂ st₂ f).2 := by
  simp only [scanFile]
  by_cases hnil : st₁.2 = []
  · have h2nil : st₂.2 = [] := ((hnil ▸ hr).symm.eq_nil)
    rw [if_pos hnil, if_pos h2nil]
    exact ⟨hc, hr⟩
  · have h2nil : ¬st₂.2 = [] := by
      intro hh
      exact hnil ((hh ▸ hr.symm).symm.eq_nil)
    rw [if_neg hnil, if_neg h2nil]
    by_cases hsz : f.size = 0
    · rw [if_pos hsz, if_pos hsz]
      exact ⟨hc, hr⟩
    · rw [if_neg hsz, if_neg hsz]
      exact scanLines_congr hlk f.sid f.lines hc hr

theorem scanFiles_congr {ao₁ ao₂ : List (String × String)}
    (hlk : ∀ k, dictLookup k ao₁ = dictLookup k ao₂) :
    ∀ (files : List LogFile) {st₁ st₂ : List (String × String) × List String},
      st₁.1 = st₂.1 → List.Perm st₁.2 st₂.2 →
      (files.foldl (scanFile ao₁) st₁).1 = (files.foldl (scanFile ao₂) st₂).1 ∧
      List.Perm (files.foldl (scanFile ao₁) st₁).2 (files.foldl (scanFile ao₂) st₂).2 := by
  intro files
  induction files with
  | nil => intro st₁ st₂ hc hr; exact ⟨hc, hr⟩
  | cons f fs ih =>
      intro st₁ st₂ hc hr
      have h := scanFile_congr hlk hc hr f
      simp only [List.foldl_cons]
      exact ih h.1 h.2

/-- The chains built from any `continues` map start at heads listed in
ascending session-id order. -/
theorem build_chains_heads_sorted (m : List (String × String)) :
    List.Pairwise (fun a b => strLe a b = true)
      ((build_chains m).map (fun ch => ch.headD "")) := by
  simp only [build_chains]
  rw [List.map_map]
  rw [List.pairwise_map]
  exact sortLe_pairwise strLe strLe_total strLe_trans _

/-- C8 counterexample: sessions `"s1"` and `"s2"` both record the same
pending orphan id `"x"`, which log `"a"` contains.  Presenting the sessions
in the two possible discovery orders produces different edge sets
(`{s2 → a}` versus `{s1 → a}`): detection is *not* order-independent. -/
theorem c8_counterexample :
    List.Perm [("s1", ["x"]), ("s2", ["x"])] [("s2", ["x"]), ("s1", ["x"])] ∧
    detect_chains [("s1", ["x"]), ("s2", ["x"])] [oneRecLog "a" "x" 5] ≠
      detect_chains [("s2", ["x"]), ("s1", ["x"])] [oneRecLog "a" "x" 5] := by decide

/-- C8 (amended): when no two sessions share a pending orphan id (the
flattened orphan lists carry globally distinct ids), chain detection and
chain building are independent of the order the sessions are presented in;
and in all cases (the procedures being pure functions, a second run
trivially reproduces the first) chains are built from heads taken in
ascending session-id order. -/
theorem c8_detection_order_independent (sessions₁ sessions₂ : List (String × List String))
    (logs : List LogFile)
    (hperm : List.Perm sessions₁ sessions₂)
    (hnd : (sessions₁.flatMap (fun p => p.2)).Nodup) :
    detect_chains sessions₁ logs = detect_chains sessions₂ logs ∧
    build_chains (detect_chains sessions₁ logs) =
      build_chains (detect_chains sessions₂ logs) ∧
    List.Pairwise (fun a b => strLe a b = true)
      ((build_chains (detect_chains sessions₁ logs)).map (fun ch => ch.headD "")) := by
  have hFperm : List.Perm (sessions₁.filter (fun p => p.2 ≠ []))
      (sessions₂.filter (fun p => p.2 ≠ [])) := hperm.filter _
  have hndF : ((sessions₁.filter (fun p => p.2 ≠ [])).flatMap (fun p => p.2)).Nodup :=
    (flatMap_filter_sublist _ _ sessions₁).nodup hnd
  have hnd₁ : ((flatOrphanPairs (sessions₁.filter (fun p => p.2 ≠ []))).map Prod.fst).Nodup := by
    rw [keys_flatOrphanPairs]
    exact hndF
  have hpairs : List.Perm (flatOrphanPairs (sessions₁.filter (fun p => p.2 ≠ [])))
      (flatOrphanPairs (sessions₂.filter (fun p => p.2 ≠ []))) :=
    List.Perm.flatMap_right _ hFperm
  have hnd₂ : ((flatOrphanPairs (sessions₂.filter (fun p => p.2 ≠ []))).map Prod.fst).Nodup :=
    ((List.Perm.map Prod.fst hpairs).nodup hnd₁)
  have hao₁ : orphanIndexOf sessions₁ = flatOrphanPairs (sessions₁.filter (fun p => p.2 ≠ [])) :=
    allOrphansOf_eq _ hnd₁
  have hao₂ : orphanIndexOf sessions₂ = flatOrphanPairs (sessions₂.filter (fun p => p.2 ≠ [])) :=
    allOrphansOf_eq _ hnd₂
  have hlkEq : ∀ k, dictLookup k (orphanIndexOf sessions₁) = dictLookup k (orphanIndexOf sessions₂) := by
    intro k
    rw [hao₁, hao₂]
    exact dictLookup_perm hpairs hnd₁ k
  have hremPerm : List.Perm ((orphanIndexOf sessions₁).map (·.1))
      ((orphanIndexOf sessions₂).map (·.1)) := by
    rw [hao₁, hao₂]
    exact hpairs.map _
  have hdet : detect_chains sessions₁ logs = detect_chains sessions₂ logs := by
    by_cases hF : sessions₁.filter (fun p => p.2 ≠ []) = []
    · have hF2 : sessions₂.filter (fun p => p.2 ≠ []) = [] := (hF ▸ hFperm).symm.eq_nil
      rw [detect_chains, detect_chains, detectChainsFull, detectChainsFull,
          if_pos hF, if_pos hF2]
    · have hF2 : ¬sessions₂.filter (fun p => p.2 ≠ []) = [] :=
        fun hh => hF ((hh ▸ hFperm).eq_nil)
      rw [detect_chains, detect_chains, detectChainsFull, detectChainsFull,
          if_neg hF, if_neg hF2]
      exact (@scanFiles_congr _ _ hlkEq (sortLe (fun a b => strLe a.sid b.sid) logs)
        ([], (orphanIndexOf sessions₁).map (·.1))
        ([], (orphanIndexOf sessions₂).map (·.1))
        rfl hremPerm).1
  exact ⟨hdet, by rw [hdet], build_chains_heads_sorted _⟩

theorem c8_detection_order_independent_witness :
    detect_chains [("s1", ["x"]), ("s2", ["y"])] [oneRecLog "a" "x" 5] =
      detect_chains [("s2", ["y"]), ("s1", ["x"])] [oneRecLog "a" "x" 5] ∧
    List.Pairwise (fun a b => strLe a b = true)
      ((build_chains (detect_chains [("s1", ["x"]), ("s2", ["y"])]
        [oneRecLog "a" "x" 5])).map (fun ch => ch.headD "")) :=
  ⟨(c8_detection_order_independent [("s1", ["x"]), ("s2", ["y"])]
      [("s2", ["y"]), ("s1", ["x"])] [oneRecLog "a" "x" 5] (by decide) (by decide)).1,
   (c8_detection_order_independent [("s1", ["x"]), ("s2", ["y"])]
      [("s2", ["y"]), ("s1", ["x"])] [oneRecLog "a" "x" 5] (by decide) (by decide)).2.2⟩

end SyncConv
